import Mathlib

/-!
Verification of the shader-function composer in `vispy/shaders/function.py`.

The Python classes `Function`, `BoundFunction`, `FunctionChain`,
`FunctionTemplate` and `FragmentFunction` are shallowly embedded below.
Python strings are modelled as Lean `String`s (except where the source
compares string *objects* with `is`, see `PyStr`), Python dicts as
insertion-ordered association lists with last-write-wins lookup, and
methods that can raise as `Option`/`Except`-valued functions.
-/

set_option linter.unusedVariables false

namespace vispy

/-- Python dict lookup, modelled over the insertion list of key-value pairs:
a later insertion overwrites an earlier one, so lookup returns the value of
the last pair whose key matches. `none` models a `KeyError` / `.get` miss. -/
def pyDictGet {α : Type} (pairs : List (String × α)) (k : String) : Option α :=
  ((pairs.filter (fun p => p.1 == k)).map (fun p => p.2)).getLast?

/-- Python `list.insert(i, x)`: a negative index counts from the end and
out-of-range indices clamp to the ends of the list. -/
def pyInsert {α : Type} (l : List α) (i : Int) (x : α) : List α :=
  let j : Nat := if i < 0 then (i + l.length).toNat else min i.toNat l.length
  l.take j ++ x :: l.drop j

/-- The `Function` fragment of function.py, with the fields the claims are
about: parsed `name`, return type `rtype`, argument list `args` (a list of
`(type, name)` pairs) and the dependency list `_deps`.  The dependency graph
being acyclic is expressed by `Function` being an inductive (finite,
tree-shaped) value; a shared dependency appears as an equal subtree under
several parents. -/
inductive Function : Type where
  | mk (name : String) (rtype : String) (args : List (String × String))
      (deps : List Function)

def Function.name : Function → String
  | .mk n _ _ _ => n

def Function.rtype : Function → String
  | .mk _ r _ _ => r

def Function.args : Function → List (String × String)
  | .mk _ _ a _ => a

def Function.deps : Function → List Function
  | .mk _ _ _ ds => ds

mutual

/-- `Function.all_deps` (function.py lines 164-174): the post-order
linearization `[*dep_subtrees..., self]`. -/
def Function.all_deps : Function → List Function
  | .mk n r a ds => Function.allDepsList ds ++ [.mk n r a ds]

/-- The loop `for fn in self._deps: deps.extend(fn.all_deps())`. -/
def Function.allDepsList : List Function → List Function
  | [] => []
  | f :: fs => f.all_deps ++ Function.allDepsList fs

end

theorem Function.allDepsList_length (ds : List Function) :
    (Function.allDepsList ds).length
      = (ds.map (fun d => (Function.all_deps d).length)).sum := by
  induction ds with
  | nil => rfl
  | cons f fs ih => simp [Function.allDepsList, ih]

theorem Function.allDepsList_split {d : Function} {ds : List Function}
    (h : d ∈ ds) :
    ∃ pre post,
      Function.allDepsList ds = pre ++ Function.all_deps d ++ post := by
  induction ds with
  | nil => cases h
  | cons f fs ih =>
    rcases List.mem_cons.mp h with rfl | hmem
    · exact ⟨[], Function.allDepsList fs, by simp [Function.allDepsList]⟩
    · obtain ⟨pre, post, hsplit⟩ := ih hmem
      exact ⟨f.all_deps ++ pre, post, by
        simp [Function.allDepsList, hsplit]⟩

/-- C1: for every Function `f` (whose dependency graph is acyclic by
construction of the inductive type), `all_deps()` ends in `f` itself; for
every direct dependency `d` of `f`, the whole sequence `d.all_deps()`
(which contains `d` and all of `d`'s own dependencies) occurs inside the
part of `f.all_deps()` that lies strictly before `f`'s final position; and
the length equation shows duplicates are retained: each dependency subtree
contributes its full (duplicate-containing) linearization, de-duplication
being left to the caller. -/
theorem Function.all_deps_spec (f : Function) :
    (Function.all_deps f).getLast? = some f ∧
    (∀ d ∈ f.deps, ∃ pre post,
        (Function.all_deps f).dropLast = pre ++ Function.all_deps d ++ post) ∧
    (Function.all_deps f).length
      = (f.deps.map (fun d => (Function.all_deps d).length)).sum + 1 := by
  obtain ⟨n, r, a, ds⟩ := f
  refine ⟨?_, ?_, ?_⟩
  · simp [Function.all_deps]
  · intro d hd
    obtain ⟨pre, post, hsplit⟩ :=
      Function.allDepsList_split (show d ∈ ds from hd)
    refine ⟨pre, post, ?_⟩
    simp [Function.all_deps, hsplit]
  · simp [Function.all_deps, Function.allDepsList_length, Function.deps]

/-! ## clean_code (function.py lines 179-194)

Python strings are sequences of characters; the line-oriented manipulation
done by `clean_code` is modelled over `List Char`. -/

/-- The whitespace characters recognised by Python `str.strip()` and
`str.lstrip()`. -/
def pySpace (c : Char) : Bool :=
  c == ' ' || c == '\t' || c == '\n' || c == '\r' || c == '\x0b' || c == '\x0c'

/-- One element of `code.split("\n")`. -/
abbrev Line := List Char

/-- `line.strip() == ""`. -/
def isBlankLine (l : Line) : Bool := l.all pySpace

/-- `len(line) - len(line.lstrip())`: the length of the leading whitespace. -/
def indentOf (l : Line) : Nat := (l.takeWhile pySpace).length

/-- `code.split("\n")` (Python `str.split` with an explicit separator:
n separators yield n+1 parts, empty parts included). -/
def splitNl : List Char → List Line
  | [] => [[]]
  | c :: cs =>
    if c = '\n' then [] :: splitNl cs
    else
      match splitNl cs with
      | [] => [[c]]
      | l :: ls => (c :: l) :: ls

/-- `"\n".join(lines)`. -/
def joinNl : List Line → List Char
  | [] => []
  | [l] => l
  | l :: l' :: ls => l ++ '\n' :: joinNl (l' :: ls)

/-- The loop `while lines[0].strip() == "": lines.pop(0)`.  On an all-blank
list Python would raise an IndexError reading `lines[0]`; the `[]` case
below marks that unreachable-under-the-claims state. -/
def popLeadingBlank : List Line → List Line
  | [] => []
  | l :: ls => if isBlankLine l then popLeadingBlank ls else l :: ls

/-- The loop `while lines[-1].strip() == "": lines.pop()` (same IndexError
caveat): removes the maximal blank suffix. -/
def popTrailingBlank : List Line → List Line
  | [] => []
  | l :: ls =>
    match popTrailingBlank ls with
    | [] => if isBlankLine l then [] else [l]
    | l' :: ls' => l :: l' :: ls'

/-- The `min_indent` fold: starts from the hard-coded sentinel `100` and
takes the minimum over the indents of the non-blank lines. -/
def minIndentFold (init : Nat) : List Line → Nat
  | [] => init
  | l :: ls =>
    minIndentFold (if isBlankLine l then init else min (indentOf l) init) ls

/-- The body of `Function.clean_code` after splitting into lines: pop blank
lines at both ends, compute `min_indent`, and strip it when positive. -/
def cleanLines (ls0 : List Line) : List Line :=
  let ls1 := popTrailingBlank (popLeadingBlank ls0)
  let m := minIndentFold 100 ls1
  if 0 < m then ls1.map (fun l => l.drop m) else ls1

/-- `Function.clean_code` (staticmethod, function.py lines 179-194). -/
def Function.clean_code (code : String) : String :=
  String.mk (joinNl (cleanLines (splitNl code.data)))

/-- Adds `k` spaces of leading whitespace to one line when it is not blank
(blank lines carry no code, so "leading whitespace of a non-blank line" only
touches the others). -/
def shiftLine (k : Nat) (l : Line) : Line :=
  if isBlankLine l then l else List.replicate k ' ' ++ l

/-- Adds `k` spaces of leading whitespace to every non-blank line of a code
block (the transformation the uniform-indentation claim quantifies over). -/
def indentBy (k : Nat) (x : String) : String :=
  String.mk (joinNl ((splitNl x.data).map (shiftLine k)))

/-! ### Facts about splitting and joining lines -/

theorem splitNl_ne_nil (cs : List Char) : splitNl cs ≠ [] := by
  induction cs with
  | nil => simp [splitNl]
  | cons c cs ih =>
    rw [splitNl]
    split
    · simp
    · split <;> simp

theorem not_nl_mem_splitNl (cs : List Char) :
    ∀ l ∈ splitNl cs, '\n' ∉ l := by
  induction cs with
  | nil =>
    intro l hl
    simp [splitNl] at hl
    simp [hl]
  | cons c cs ih =>
    intro l hl
    rw [splitNl] at hl
    by_cases hc : c = '\n'
    · rw [if_pos hc] at hl
      rcases List.mem_cons.mp hl with rfl | hmem
      · simp
      · exact ih l hmem
    · rw [if_neg hc] at hl
      cases hs : splitNl cs with
      | nil => exact absurd hs (splitNl_ne_nil cs)
      | cons l0 ls =>
        rw [hs] at hl
        rcases List.mem_cons.mp hl with rfl | hmem
        · intro hmem'
          rcases List.mem_cons.mp hmem' with h | h
          · exact hc h.symm
          · exact ih l0 (by rw [hs]; exact List.mem_cons_self _ _) h
        · exact ih l (by rw [hs]; exact List.mem_cons_of_mem _ hmem)

theorem splitNl_of_not_nl (l : List Char) (h : '\n' ∉ l) : splitNl l = [l] := by
  induction l with
  | nil => rfl
  | cons c cs ih =>
    have hc : c ≠ '\n' := fun e => h (by simp [e])
    rw [splitNl, if_neg hc, ih (fun hm => h (List.mem_cons_of_mem _ hm))]

theorem splitNl_append_nl (l rest : List Char) (h : '\n' ∉ l) :
    splitNl (l ++ '\n' :: rest) = l :: splitNl rest := by
  induction l with
  | nil => simp [splitNl]
  | cons c cs ih =>
    have hc : c ≠ '\n' := fun e => h (by simp [e])
    rw [List.cons_append, splitNl, if_neg hc,
      ih (fun hm => h (List.mem_cons_of_mem _ hm))]

theorem splitNl_joinNl (ls : List Line) (hne : ls ≠ [])
    (hnl : ∀ l ∈ ls, '\n' ∉ l) : splitNl (joinNl ls) = ls := by
  induction ls with
  | nil => cases hne rfl
  | cons l ls ih =>
    cases ls with
    | nil => exact splitNl_of_not_nl l (hnl l (List.mem_cons_self _ _))
    | cons l' ls' =>
      rw [joinNl, splitNl_append_nl l _ (hnl l (List.mem_cons_self _ _)),
        ih (by simp) (fun y hy => hnl y (List.mem_cons_of_mem _ hy))]

/-! ### Facts about blank lines and indentation -/

theorem isBlankLine_drop {l : Line} (h : isBlankLine l = true) (m : Nat) :
    isBlankLine (l.drop m) = true := by
  rw [isBlankLine, List.all_eq_true] at *
  intro c hc
  exact h c (List.mem_of_mem_drop hc)

theorem takeWhile_append_of_all {p : Char → Bool} {a : List Char}
    (b : List Char) (h : ∀ x ∈ a, p x = true) :
    (a ++ b).takeWhile p = a ++ b.takeWhile p := by
  induction a with
  | nil => simp
  | cons c cs ih =>
    rw [List.cons_append, List.takeWhile_cons,
      if_pos (h c (List.mem_cons_self _ _)),
      ih (fun x hx => h x (List.mem_cons_of_mem _ hx)), List.cons_append]

theorem takeWhile_cons_of_neg {p : Char → Bool} {c : Char} (cs : List Char)
    (h : p c = false) : (c :: cs).takeWhile p = [] := by
  rw [List.takeWhile_cons, h]
  simp

theorem drop_eq_of_le_indent {l : Line} {m : Nat} (hm : m ≤ indentOf l) :
    l.drop m = (l.takeWhile pySpace).drop m ++ l.dropWhile pySpace := by
  rw [indentOf] at hm
  conv_lhs => rw [← List.takeWhile_append_dropWhile (p := pySpace) (l := l)]
  rw [List.drop_append_eq_append_drop, Nat.sub_eq_zero_of_le hm, List.drop_zero]

theorem dropWhile_head_not {p : Char → Bool} {l : List Char} {c : Char}
    {cs : List Char} (h : l.dropWhile p = c :: cs) : p c = false := by
  induction l with
  | nil => simp [List.dropWhile] at h
  | cons a l ih =>
    rw [List.dropWhile_cons] at h
    split at h
    · exact ih h
    · rename_i hcond
      injection h with h1 h2
      subst h1
      simpa using hcond

theorem not_blank_iff_dropWhile_ne_nil {l : Line} :
    isBlankLine l = false ↔ l.dropWhile pySpace ≠ [] := by
  rw [isBlankLine]
  constructor
  · intro h hnil
    rw [List.dropWhile_eq_nil_iff] at hnil
    rw [List.all_eq_false] at h
    obtain ⟨c, hc, hcs⟩ := h
    exact hcs (hnil c hc)
  · intro h
    rw [List.all_eq_false]
    cases hd : l.dropWhile pySpace with
    | nil => exact absurd hd h
    | cons c cs =>
      refine ⟨c, ?_, by simp [dropWhile_head_not hd]⟩
      have hmem : c ∈ l.dropWhile pySpace := by
        rw [hd]
        exact List.mem_cons_self _ _
      exact (List.dropWhile_sublist (p := pySpace) (l := l)).mem hmem

theorem not_blank_drop {l : Line} {m : Nat} (hnb : isBlankLine l = false)
    (hm : m ≤ indentOf l) : isBlankLine (l.drop m) = false := by
  have hnb' := not_blank_iff_dropWhile_ne_nil.mp hnb
  cases hd : l.dropWhile pySpace with
  | nil => exact absurd hd hnb'
  | cons c cs =>
    rw [drop_eq_of_le_indent hm, hd, isBlankLine, List.all_eq_false]
    exact ⟨c, by simp, by simp [dropWhile_head_not hd]⟩

theorem indentOf_drop {l : Line} {m : Nat} (hm : m ≤ indentOf l) :
    indentOf (l.drop m) = indentOf l - m := by
  have hall : ∀ x ∈ (l.takeWhile pySpace).drop m, pySpace x = true := by
    intro x hx
    exact List.mem_takeWhile_imp (List.mem_of_mem_drop hx)
  rw [drop_eq_of_le_indent hm]
  cases hd : l.dropWhile pySpace with
  | nil =>
    have heq := takeWhile_append_of_all (p := pySpace) [] hall
    rw [hd, List.append_nil] at *
    rw [indentOf, heq]
    simp [indentOf]
  | cons c cs =>
    rw [indentOf, takeWhile_append_of_all _ hall,
      takeWhile_cons_of_neg _ (dropWhile_head_not hd), List.append_nil]
    simp [indentOf]

/-! ### Facts about the min_indent fold -/

theorem minIndentFold_le_init (init : Nat) (ls : List Line) :
    minIndentFold init ls ≤ init := by
  induction ls generalizing init with
  | nil => simp [minIndentFold]
  | cons l ls ih =>
    rw [minIndentFold]
    split
    · exact ih init
    · exact le_trans (ih _) (min_le_right _ _)

theorem minIndentFold_le_mem {l : Line} {ls : List Line} (init : Nat)
    (hl : l ∈ ls) (hnb : isBlankLine l = false) :
    minIndentFold init ls ≤ indentOf l := by
  induction ls generalizing init with
  | nil => cases hl
  | cons a ls ih =>
    rw [minIndentFold]
    rcases List.mem_cons.mp hl with rfl | hmem
    · rw [hnb]
      simp only [Bool.false_eq_true, if_false]
      exact le_trans (minIndentFold_le_init _ _) (min_le_left _ _)
    · split
      · exact ih init hmem
      · exact ih _ hmem

theorem minIndentFold_eq_init_or (init : Nat) (ls : List Line) :
    minIndentFold init ls = init ∨
    ∃ l ∈ ls, isBlankLine l = false ∧ indentOf l = minIndentFold init ls := by
  induction ls generalizing init with
  | nil => exact Or.inl rfl
  | cons a ls ih =>
    rw [minIndentFold]
    by_cases hb : isBlankLine a = true
    · rw [if_pos hb]
      rcases ih init with h | ⟨l, hl, hnb, hi⟩
      · exact Or.inl h
      · exact Or.inr ⟨l, List.mem_cons_of_mem _ hl, hnb, hi⟩
    · rw [if_neg hb]
      rcases ih (min (indentOf a) init) with h | ⟨l, hl, hnb, hi⟩
      · rcases le_total (indentOf a) init with hle | hle
        · refine Or.inr ⟨a, List.mem_cons_self _ _, ?_, ?_⟩
          · simpa using hb
          · rw [h, min_eq_left hle]
        · left
          rw [h, min_eq_right hle]
      · exact Or.inr ⟨l, List.mem_cons_of_mem _ hl, hnb, hi⟩

theorem minIndentFold_achieved {ls : List Line} {i : Nat}
    (h : ∃ l ∈ ls, isBlankLine l = false ∧ indentOf l ≤ i) :
    ∃ l ∈ ls, isBlankLine l = false ∧ indentOf l = minIndentFold i ls := by
  obtain ⟨l0, hl0, hnb0, hle0⟩ := h
  rcases minIndentFold_eq_init_or i ls with heq | hach
  · refine ⟨l0, hl0, hnb0, ?_⟩
    have h1 := minIndentFold_le_mem i hl0 hnb0
    omega
  · exact hach

/-! ### Facts about the blank-line pops -/

theorem popLeadingBlank_subset {x : Line} {ls : List Line}
    (h : x ∈ popLeadingBlank ls) : x ∈ ls := by
  induction ls with
  | nil => simp [popLeadingBlank] at h
  | cons l ls ih =>
    rw [popLeadingBlank] at h
    split at h
    · exact List.mem_cons_of_mem _ (ih h)
    · exact h

theorem mem_popLeadingBlank {x : Line} {ls : List Line}
    (hx : x ∈ ls) (hnb : isBlankLine x = false) : x ∈ popLeadingBlank ls := by
  induction ls with
  | nil => cases hx
  | cons l ls ih =>
    rw [popLeadingBlank]
    rcases List.mem_cons.mp hx with rfl | hmem
    · rw [hnb]
      simp only [Bool.false_eq_true, if_false]
      exact List.mem_cons_self _ _
    · split
      · exact ih hmem
      · exact List.mem_cons_of_mem _ hmem

theorem popLeadingBlank_head_not_blank {ls : List Line} {l : Line}
    {rest : List Line} (h : popLeadingBlank ls = l :: rest) :
    isBlankLine l = false := by
  induction ls with
  | nil => simp [popLeadingBlank] at h
  | cons a ls ih =>
    rw [popLeadingBlank] at h
    split at h
    · exact ih h
    · rename_i hcond
      injection h with h1 h2
      subst h1
      simpa using hcond

theorem popLeadingBlank_eq_self {l : Line} (ls : List Line)
    (h : isBlankLine l = false) : popLeadingBlank (l :: ls) = l :: ls := by
  rw [popLeadingBlank, h]
  simp

theorem popTrailingBlank_cons_nil {l : Line} {ls : List Line}
    (hpt : popTrailingBlank ls = []) :
    popTrailingBlank (l :: ls) = if isBlankLine l then [] else [l] := by
  rw [popTrailingBlank, hpt]

theorem popTrailingBlank_cons_cons {l l' : Line} {ls ls' : List Line}
    (hpt : popTrailingBlank ls = l' :: ls') :
    popTrailingBlank (l :: ls) = l :: l' :: ls' := by
  rw [popTrailingBlank, hpt]

theorem popTrailingBlank_subset {x : Line} {ls : List Line}
    (h : x ∈ popTrailingBlank ls) : x ∈ ls := by
  induction ls with
  | nil => simp [popTrailingBlank] at h
  | cons l ls ih =>
    cases hpt : popTrailingBlank ls with
    | nil =>
      rw [popTrailingBlank_cons_nil hpt] at h
      split at h
      · cases h
      · rcases List.mem_singleton.mp h with rfl
        exact List.mem_cons_self _ _
    | cons l' ls' =>
      rw [popTrailingBlank_cons_cons hpt] at h
      rcases List.mem_cons.mp h with rfl | hmem
      · exact List.mem_cons_self _ _
      · exact List.mem_cons_of_mem _ (ih (by rw [hpt]; exact hmem))

theorem mem_popTrailingBlank {x : Line} {ls : List Line}
    (hx : x ∈ ls) (hnb : isBlankLine x = false) :
    x ∈ popTrailingBlank ls := by
  induction ls with
  | nil => cases hx
  | cons l ls ih =>
    rcases List.mem_cons.mp hx with rfl | hmem
    · cases hpt : popTrailingBlank ls with
      | nil =>
        rw [popTrailingBlank_cons_nil hpt, hnb]
        simp
      | cons l' ls' =>
        rw [popTrailingBlank_cons_cons hpt]
        exact List.mem_cons_self _ _
    · have hmem' := ih hmem
      cases hpt : popTrailingBlank ls with
      | nil =>
        rw [hpt] at hmem'
        cases hmem'
      | cons l' ls' =>
        rw [hpt] at hmem'
        rw [popTrailingBlank_cons_cons hpt]
        exact List.mem_cons_of_mem _ hmem'

theorem popTrailingBlank_cons_structure (l : Line) (ls : List Line) :
    popTrailingBlank (l :: ls) = [] ∨
    ∃ rest, popTrailingBlank (l :: ls) = l :: rest := by
  cases hpt : popTrailingBlank ls with
  | nil =>
    rw [popTrailingBlank_cons_nil hpt]
    split
    · exact Or.inl rfl
    · exact Or.inr ⟨[], rfl⟩
  | cons l' ls' => exact Or.inr ⟨l' :: ls', popTrailingBlank_cons_cons hpt⟩

theorem popTrailingBlank_last_not_blank {ls : List Line} {x : Line}
    (h : (popTrailingBlank ls).getLast? = some x) : isBlankLine x = false := by
  induction ls with
  | nil => simp [popTrailingBlank] at h
  | cons l ls ih =>
    cases hpt : popTrailingBlank ls with
    | nil =>
      rw [popTrailingBlank_cons_nil hpt] at h
      split at h
      · simp at h
      · rename_i hcond
        rw [List.getLast?_singleton] at h
        injection h with hx
        subst hx
        simpa using hcond
    | cons l' ls' =>
      rw [popTrailingBlank_cons_cons hpt, List.getLast?_cons_cons] at h
      exact ih (by rw [hpt]; exact h)

theorem popTrailingBlank_eq_self {ls : List Line} {x : Line}
    (hlast : ls.getLast? = some x) (h : isBlankLine x = false) :
    popTrailingBlank ls = ls := by
  induction ls with
  | nil => simp at hlast
  | cons l ls ih =>
    cases hls : ls with
    | nil =>
      subst hls
      rw [List.getLast?_singleton] at hlast
      injection hlast with hx
      subst hx
      have hnil : popTrailingBlank ([] : List Line) = [] := rfl
      rw [popTrailingBlank_cons_nil hnil, h]
      simp
    | cons l' ls' =>
      subst hls
      rw [List.getLast?_cons_cons] at hlast
      exact popTrailingBlank_cons_cons (ih hlast)

theorem mem_of_getLast?_eq {α : Type} {l : List α} {x : α}
    (h : l.getLast? = some x) : x ∈ l := by
  obtain ⟨hne, heq⟩ :=
    List.mem_getLast?_eq_getLast (Option.mem_def.mpr h)
  rw [heq]
  exact List.getLast_mem hne

/-! ### cleanLines: fixed points and the shape of its output -/

theorem cleanLines_def (ls0 : List Line) :
    cleanLines ls0 =
      if 0 < minIndentFold 100 (popTrailingBlank (popLeadingBlank ls0)) then
        (popTrailingBlank (popLeadingBlank ls0)).map
          (fun l => l.drop
            (minIndentFold 100 (popTrailingBlank (popLeadingBlank ls0))))
      else popTrailingBlank (popLeadingBlank ls0) := rfl

theorem cleanLines_fix {l : Line} {ls : List Line} {x : Line}
    (hh : isBlankLine l = false)
    (hlast : (l :: ls).getLast? = some x) (hx : isBlankLine x = false)
    (hm : minIndentFold 100 (l :: ls) = 0) : cleanLines (l :: ls) = l :: ls := by
  rw [cleanLines_def, popLeadingBlank_eq_self _ hh,
    popTrailingBlank_eq_self hlast hx, hm]
  simp

theorem cleanLines_output {ls0 : List Line}
    (h : ∃ l ∈ ls0, isBlankLine l = false ∧ indentOf l ≤ 100) :
    (∃ a rest, cleanLines ls0 = a :: rest ∧ isBlankLine a = false) ∧
    (∃ x, (cleanLines ls0).getLast? = some x ∧ isBlankLine x = false) ∧
    minIndentFold 100 (cleanLines ls0) = 0 ∧
    (∀ y ∈ cleanLines ls0, ∃ z ∈ ls0, ∃ m, y = z.drop m) := by
  obtain ⟨l0, hl0, hnb0, hle0⟩ := h
  have hl0p : l0 ∈ popLeadingBlank ls0 := mem_popLeadingBlank hl0 hnb0
  have hl0t : l0 ∈ popTrailingBlank (popLeadingBlank ls0) :=
    mem_popTrailingBlank hl0p hnb0
  obtain ⟨a, t, hat⟩ := List.exists_cons_of_ne_nil (List.ne_nil_of_mem hl0p)
  have hnba : isBlankLine a = false := popLeadingBlank_head_not_blank hat
  have hsub1 : ∀ y ∈ popTrailingBlank (popLeadingBlank ls0), y ∈ ls0 :=
    fun y hy => popLeadingBlank_subset (popTrailingBlank_subset hy)
  obtain ⟨rest, hrest⟩ :
      ∃ rest, popTrailingBlank (popLeadingBlank ls0) = a :: rest := by
    rw [hat]
    rcases popTrailingBlank_cons_structure a t with hnil | hcons
    · rw [hat, hnil] at hl0t
      cases hl0t
    · exact hcons
  obtain ⟨x, hxlast⟩ :
      ∃ x, (popTrailingBlank (popLeadingBlank ls0)).getLast? = some x := by
    cases hg : (popTrailingBlank (popLeadingBlank ls0)).getLast? with
    | none =>
      rw [List.getLast?_eq_none_iff] at hg
      rw [hg] at hl0t
      cases hl0t
    | some y => exact ⟨y, rfl⟩
  have hnbx : isBlankLine x = false := popTrailingBlank_last_not_blank hxlast
  have hxmem : x ∈ popTrailingBlank (popLeadingBlank ls0) :=
    mem_of_getLast?_eq hxlast
  have hamem : a ∈ popTrailingBlank (popLeadingBlank ls0) := by
    rw [hrest]
    exact List.mem_cons_self _ _
  obtain ⟨lst, hlst, hnbst, hist⟩ :=
    minIndentFold_achieved ⟨l0, hl0t, hnb0, hle0⟩
  rw [cleanLines_def]
  set ls1 := popTrailingBlank (popLeadingBlank ls0) with hls1
  set m := minIndentFold 100 ls1 with hmdef
  by_cases h0 : 0 < m
  · rw [if_pos h0]
    refine ⟨⟨a.drop m, rest.map (fun l => l.drop m), ?_, ?_⟩,
      ⟨x.drop m, ?_, ?_⟩, ?_, ?_⟩
    · rw [hrest]
      simp
    · exact not_blank_drop hnba (minIndentFold_le_mem _ hamem hnba)
    · rw [List.getLast?_map, hxlast]
      rfl
    · exact not_blank_drop hnbx (minIndentFold_le_mem _ hxmem hnbx)
    · have hmem' : lst.drop m ∈ ls1.map (fun l => l.drop m) :=
        List.mem_map_of_mem _ hlst
      have hle' := minIndentFold_le_mem 100 hmem'
        (not_blank_drop hnbst (le_of_eq hist.symm))
      rw [indentOf_drop (le_of_eq hist.symm), hist] at hle'
      omega
    · intro y hy
      obtain ⟨z, hz, hzy⟩ := List.mem_map.mp hy
      exact ⟨z, hsub1 z hz, m, hzy.symm⟩
  · have hm0 : m = 0 := by omega
    rw [if_neg h0]
    exact ⟨⟨a, rest, hrest, hnba⟩, ⟨x, hxlast, hnbx⟩, hm0,
      fun y hy => ⟨y, hsub1 y hy, 0, (List.drop_zero y).symm⟩⟩

theorem cleanLines_origin {ls0 : List Line} :
    ∀ y ∈ cleanLines ls0, ∃ z ∈ ls0, ∃ m, y = z.drop m := by
  rw [cleanLines_def]
  split
  · intro y hy
    obtain ⟨z, hz, hzy⟩ := List.mem_map.mp hy
    exact ⟨z, popLeadingBlank_subset (popTrailingBlank_subset hz), _, hzy.symm⟩
  · intro y hy
    exact ⟨y, popLeadingBlank_subset (popTrailingBlank_subset hy), 0,
      (List.drop_zero y).symm⟩

theorem cleanLines_no_nl {cs : List Char} :
    ∀ y ∈ cleanLines (splitNl cs), '\n' ∉ y := by
  intro y hy hmem
  obtain ⟨z, hz, m, rfl⟩ := cleanLines_origin y hy
  exact not_nl_mem_splitNl cs z hz (List.mem_of_mem_drop hmem)

theorem cleanLines_idem {ls0 : List Line}
    (h : ∃ l ∈ ls0, isBlankLine l = false ∧ indentOf l ≤ 100) :
    cleanLines (cleanLines ls0) = cleanLines ls0 := by
  obtain ⟨⟨a, rest, heq, hnba⟩, ⟨x, hxlast, hnbx⟩, hm0, _⟩ := cleanLines_output h
  rw [heq] at hxlast hm0 ⊢
  exact cleanLines_fix hnba hxlast hnbx hm0

theorem splitNl_clean_code (x : String)
    (h : ∃ l ∈ splitNl x.data, isBlankLine l = false ∧ indentOf l ≤ 100) :
    splitNl (Function.clean_code x).data = cleanLines (splitNl x.data) := by
  obtain ⟨⟨a, rest, heq, hnba⟩, _, _, _⟩ := cleanLines_output h
  exact splitNl_joinNl _ (by rw [heq]; simp) cleanLines_no_nl

/-! ### Facts about uniform indentation shifts -/

theorem isBlankLine_shiftLine (k : Nat) (l : Line) :
    isBlankLine (shiftLine k l) = isBlankLine l := by
  rw [shiftLine]
  split
  · rfl
  · rw [isBlankLine, isBlankLine, List.all_append]
    have hrep : (List.replicate k ' ').all pySpace = true := by
      rw [List.all_eq_true]
      intro c hc
      rw [List.eq_of_mem_replicate hc]
      rfl
    rw [hrep, Bool.true_and]

theorem indentOf_shiftLine {l : Line} (k : Nat) (hnb : isBlankLine l = false) :
    indentOf (shiftLine k l) = k + indentOf l := by
  rw [shiftLine, if_neg (by simp [hnb]), indentOf,
    takeWhile_append_of_all _ (fun x hx => by
      rw [List.eq_of_mem_replicate hx]; rfl),
    List.length_append, List.length_replicate]
  rfl

theorem shiftLine_zero (l : Line) : shiftLine 0 l = l := by
  rw [shiftLine]
  split
  · rfl
  · simp

theorem popLeadingBlank_shift (k : Nat) (ls : List Line) :
    popLeadingBlank (ls.map (shiftLine k))
      = (popLeadingBlank ls).map (shiftLine k) := by
  induction ls with
  | nil => rfl
  | cons l ls ih =>
    by_cases hb : isBlankLine l = true
    · rw [List.map_cons, popLeadingBlank, isBlankLine_shiftLine, if_pos hb,
        popLeadingBlank, if_pos hb]
      exact ih
    · rw [List.map_cons, popLeadingBlank, isBlankLine_shiftLine, if_neg hb,
        popLeadingBlank, if_neg hb, List.map_cons]

theorem popTrailingBlank_shift (k : Nat) (ls : List Line) :
    popTrailingBlank (ls.map (shiftLine k))
      = (popTrailingBlank ls).map (shiftLine k) := by
  induction ls with
  | nil => rfl
  | cons l ls ih =>
    cases hpt : popTrailingBlank ls with
    | nil =>
      have hmap : popTrailingBlank (ls.map (shiftLine k)) = [] := by
        rw [ih, hpt]
        rfl
      rw [List.map_cons, popTrailingBlank_cons_nil hmap,
        popTrailingBlank_cons_nil hpt, isBlankLine_shiftLine]
      by_cases hb : isBlankLine l = true
      · rw [if_pos hb, if_pos hb]
        rfl
      · rw [if_neg hb, if_neg hb]
        rfl
    | cons l' ls' =>
      have hmap : popTrailingBlank (ls.map (shiftLine k))
          = shiftLine k l' :: ls'.map (shiftLine k) := by
        rw [ih, hpt]
        rfl
      rw [List.map_cons, popTrailingBlank_cons_cons hmap,
        popTrailingBlank_cons_cons hpt]
      rfl

theorem minIndentFold_shift {ls : List Line} {k : Nat}
    (h : ∃ l ∈ ls, isBlankLine l = false ∧ indentOf l + k ≤ 100) :
    minIndentFold 100 (ls.map (shiftLine k)) = minIndentFold 100 ls + k := by
  obtain ⟨l0, hl0, hnb0, hle0⟩ := h
  obtain ⟨lst, hlst, hnbst, hist⟩ :=
    minIndentFold_achieved (i := 100) ⟨l0, hl0, hnb0, by omega⟩
  have h1 : minIndentFold 100 (ls.map (shiftLine k))
      ≤ minIndentFold 100 ls + k := by
    have hmem : shiftLine k lst ∈ ls.map (shiftLine k) :=
      List.mem_map_of_mem _ hlst
    have hnb' : isBlankLine (shiftLine k lst) = false := by
      rw [isBlankLine_shiftLine]
      exact hnbst
    have hle := minIndentFold_le_mem 100 hmem hnb'
    rw [indentOf_shiftLine _ hnbst, hist] at hle
    omega
  have h2 : minIndentFold 100 ls + k
      ≤ minIndentFold 100 (ls.map (shiftLine k)) := by
    have hach : ∃ l' ∈ ls.map (shiftLine k),
        isBlankLine l' = false ∧ indentOf l' ≤ 100 := by
      refine ⟨shiftLine k l0, List.mem_map_of_mem _ hl0, ?_, ?_⟩
      · rw [isBlankLine_shiftLine]
        exact hnb0
      · rw [indentOf_shiftLine _ hnb0]
        omega
    obtain ⟨l', hl', hnb', hi'⟩ := minIndentFold_achieved hach
    obtain ⟨y, hy, hyl⟩ := List.mem_map.mp hl'
    have hnby : isBlankLine y = false := by
      rw [← hyl, isBlankLine_shiftLine] at hnb'
      exact hnb'
    have hley : minIndentFold 100 ls ≤ indentOf y :=
      minIndentFold_le_mem _ hy hnby
    rw [← hyl, indentOf_shiftLine _ hnby] at hi'
    omega
  omega

theorem drop_shiftLine_not_blank {l : Line} {m k : Nat}
    (hnb : isBlankLine l = false) :
    (shiftLine k l).drop (m + k) = l.drop m := by
  rw [shiftLine, if_neg (by simp [hnb]), List.drop_append_eq_append_drop,
    List.drop_eq_nil_of_le (by rw [List.length_replicate]; omega),
    List.nil_append, List.length_replicate]
  congr 1
  omega

theorem cleanLines_shift {ls0 : List Line} {k : Nat}
    (h1 : ∃ l ∈ ls0, isBlankLine l = false ∧ indentOf l + k ≤ 100)
    (h2 : ∀ b ∈ ls0, isBlankLine b = true →
        ∀ l ∈ ls0, isBlankLine l = false → b.length ≤ indentOf l) :
    cleanLines (ls0.map (shiftLine k)) = cleanLines ls0 := by
  obtain ⟨l0, hl0, hnb0, hle0⟩ := h1
  rw [cleanLines_def, cleanLines_def, popLeadingBlank_shift,
    popTrailingBlank_shift]
  set ls1 := popTrailingBlank (popLeadingBlank ls0) with hls1
  have hl0t : l0 ∈ ls1 :=
    mem_popTrailingBlank (mem_popLeadingBlank hl0 hnb0) hnb0
  have hfold := minIndentFold_shift ⟨l0, hl0t, hnb0, hle0⟩
  rw [hfold]
  set m := minIndentFold 100 ls1 with hm
  obtain ⟨lst, hlst, hnbst, hist⟩ :=
    minIndentFold_achieved (i := 100) ⟨l0, hl0t, hnb0, by omega⟩
  have hsub : ∀ y ∈ ls1, y ∈ ls0 :=
    fun y hy => popLeadingBlank_subset (popTrailingBlank_subset hy)
  have hblank_le : ∀ b ∈ ls1, isBlankLine b = true → b.length ≤ m := by
    intro b hb hbb
    have := h2 b (hsub b hb) hbb lst (hsub lst hlst) hnbst
    omega
  by_cases h0 : 0 < m
  · rw [if_pos (by omega : 0 < m + k), if_pos h0, List.map_map]
    apply List.map_congr_left
    intro y hy
    by_cases hby : isBlankLine y = true
    · show (shiftLine k y).drop (m + k) = y.drop m
      rw [shiftLine, if_pos hby,
        List.drop_eq_nil_of_le (le_trans (hblank_le y hy hby) (by omega)),
        List.drop_eq_nil_of_le (hblank_le y hy hby)]
    · simp only [Bool.not_eq_true] at hby
      exact drop_shiftLine_not_blank hby
  · have hm0 : m = 0 := by omega
    rw [if_neg h0]
    by_cases hk : 0 < k
    · rw [if_pos (by omega : 0 < m + k), List.map_map]
      have hid : ∀ y ∈ ls1, ((fun l => List.drop (m + k) l) ∘ shiftLine k) y
          = id y := by
        intro y hy
        by_cases hby : isBlankLine y = true
        · show (shiftLine k y).drop (m + k) = y
          have hynil : y = [] :=
            List.eq_nil_of_length_eq_zero (by
              have := hblank_le y hy hby
              omega)
          rw [shiftLine, if_pos hby, hynil, List.drop_nil]
        · simp only [Bool.not_eq_true] at hby
          show (shiftLine k y).drop (m + k) = y
          rw [drop_shiftLine_not_blank hby, hm0, List.drop_zero]
      rw [List.map_congr_left hid, List.map_id]
    · have hk0 : k = 0 := by omega
      subst hk0
      rw [if_neg (by omega : ¬ 0 < m + 0)]
      have hid : ∀ y ∈ ls1, shiftLine 0 y = id y :=
        fun y _ => shiftLine_zero y
      rw [List.map_congr_left hid, List.map_id]

/-- C9 (amended): `clean_code` is idempotent on every code block having a
non-blank line whose indentation does not exceed the hard-coded sentinel
100; its output starts and ends with a non-blank line (leading and trailing
blank lines are stripped while only a uniform amount of indentation is
removed from the kept lines); and it is invariant under uniformly adding
`k` spaces of leading whitespace to every non-blank line provided the
shifted minimum indentation still fits under the sentinel and every blank
line is no longer than the indentation of each non-blank line.  Without the
sentinel-side conditions the claim fails, see
`Function.clean_code_sentinel_counterexample`. -/
theorem Function.clean_code_spec (x : String) (k : Nat)
    (h1 : ∃ l ∈ splitNl x.data, isBlankLine l = false ∧ indentOf l ≤ 100) :
    Function.clean_code (Function.clean_code x) = Function.clean_code x ∧
    (∀ a, (splitNl (Function.clean_code x).data).head? = some a →
      isBlankLine a = false) ∧
    (∀ z, (splitNl (Function.clean_code x).data).getLast? = some z →
      isBlankLine z = false) ∧
    ((∃ l ∈ splitNl x.data, isBlankLine l = false ∧ indentOf l + k ≤ 100) →
     (∀ b ∈ splitNl x.data, isBlankLine b = true →
        ∀ l ∈ splitNl x.data, isBlankLine l = false →
          b.length ≤ indentOf l) →
     Function.clean_code (indentBy k x) = Function.clean_code x) := by
  have hsplit := splitNl_clean_code x h1
  obtain ⟨⟨a, rest, heq, hnba⟩, ⟨z, hzlast, hnbz⟩, hm0, _⟩ :=
    cleanLines_output h1
  refine ⟨?_, ?_, ?_, ?_⟩
  · show String.mk (joinNl (cleanLines (splitNl
        (Function.clean_code x).data))) = _
    rw [hsplit, cleanLines_idem h1]
    rfl
  · intro a' ha'
    rw [hsplit, heq, List.head?_cons] at ha'
    injection ha' with h
    subst h
    exact hnba
  · intro z' hz'
    rw [hsplit, hzlast] at hz'
    injection hz' with h
    subst h
    exact hnbz
  · intro hk hblank
    show String.mk (joinNl (cleanLines (splitNl (indentBy k x).data))) = _
    have hround : splitNl (indentBy k x).data
        = (splitNl x.data).map (shiftLine k) := by
      apply splitNl_joinNl
      · obtain ⟨a0, t0, hat0⟩ :=
          List.exists_cons_of_ne_nil (splitNl_ne_nil x.data)
        rw [hat0, List.map_cons]
        simp
      · intro l hl hmem
        obtain ⟨y, hy, rfl⟩ := List.mem_map.mp hl
        rw [shiftLine] at hmem
        split at hmem
        · exact not_nl_mem_splitNl _ y hy hmem
        · rcases List.mem_append.mp hmem with h | h
          · have := List.eq_of_mem_replicate h
            simp at this
          · exact not_nl_mem_splitNl _ y hy h
    rw [hround, cleanLines_shift hk hblank]
    rfl

/-- C9 counterexample: on the one-line block of 101 spaces followed by `a`,
the hard-coded sentinel 100 makes clean_code strip only 100 of the 101
leading spaces, so a second application strips the remaining space:
clean_code is not idempotent as claimed. -/
theorem Function.clean_code_sentinel_counterexample :
    Function.clean_code (Function.clean_code
        (String.mk (List.replicate 101 ' ' ++ ['a'])))
      ≠ Function.clean_code (String.mk (List.replicate 101 ' ' ++ ['a'])) := by
  decide

theorem Function.clean_code_spec_witness :
    Function.clean_code (Function.clean_code "  vec4 f()\n    more\n")
      = Function.clean_code "  vec4 f()\n    more\n" ∧
    Function.clean_code (indentBy 2 "  vec4 f()\n    more\n")
      = Function.clean_code "  vec4 f()\n    more\n" :=
  ⟨(Function.clean_code_spec "  vec4 f()\n    more\n" 2 (by decide)).1,
   (Function.clean_code_spec "  vec4 f()\n    more\n" 2 (by decide)).2.2.2
     (by decide) (by decide)⟩

/-! ## The signature parser

`function.py` imports `parsing` (`from . import parsing`), but `parsing.py`
is not under src/; the parser is therefore modelled from the spec. -/

/-- Python `text.split(sep)` for a one-character separator, over the
characters of the text (n separators yield n+1 parts, empty parts
included). -/
def splitOnChar (sep : Char) : List Char → List (List Char)
  | [] => [[]]
  | c :: cs =>
    if c = sep then [] :: splitOnChar sep cs
    else
      match splitOnChar sep cs with
      | [] => [[c]]
      | l :: ls => (c :: l) :: ls

/-- Python `text.strip()` over the characters of the text. -/
def trimChars (l : List Char) : List Char :=
  ((l.dropWhile pySpace).reverse.dropWhile pySpace).reverse

/-- Modelled from the spec: one `type name` argument inside the parentheses
of a declaration line (spec section 4.1 / 6). -/
def parseArg (s : List Char) : Option (String × String) :=
  match splitOnChar ' ' (trimChars s) with
  | [t, n] =>
    if t ≠ [] ∧ n ≠ [] then some (String.mk t, String.mk n) else none
  | _ => none

/-- Modelled from the spec: the comma-separated argument list of a
declaration line; an empty parenthesis pair yields no arguments. -/
def parseArgList (inner : List Char) : Option (List (String × String)) :=
  if trimChars inner = [] then some []
  else (splitOnChar ',' inner).mapM parseArg

/-- Modelled from the spec: one candidate declaration line of the form
`returnType name(type1 arg1, type2 arg2, ...) \x7b` (spec section 6),
yielding `(name, args, rtype)`. -/
def parseDeclLine (line : List Char) :
    Option (String × List (String × String) × String) :=
  match splitOnChar '(' line with
  | [pre, rest] =>
    match splitOnChar ')' rest with
    | [inner, tail] =>
      if trimChars tail = ['\x7b'] then
        match splitOnChar ' ' (trimChars pre) with
        | [rtype, name] =>
          if rtype ≠ [] ∧ name ≠ [] then
            (parseArgList inner).map
              (fun args => (String.mk name, args, String.mk rtype))
          else none
        | _ => none
      else none
    | _ => none
  | _ => none

/-- Modelled from the spec: `parsing.parse_function_signature(code)` scans
the code for its function declaration line and returns
`(name, args, rtype)`; `none` models the `ParseError` raised when no line
matches (spec section 4.1). -/
def parse_function_signature (code : String) :
    Option (String × List (String × String) × String) :=
  firstDecl (splitNl code.data)
where
  firstDecl : List (List Char) →
      Option (String × List (String × String) × String)
    | [] => none
    | l :: ls =>
      match parseDeclLine l with
      | some r => some r
      | none => firstDecl ls

/-! ## FunctionChain (function.py lines 293-396) -/

/-- The mutable state of a `FunctionChain` instance: `_funcs`, `_deps`, the
derived signature fields maintained by `_update_signature` and by
`set_code`, and the `_code` cache (`none` is Python's `None`).  The
`variables` dict and `_program_values` take part in no claim and are
omitted. -/
structure ChainState where
  name : String
  funcs : List Function
  deps : List Function
  rtype : String
  args : List (String × String)
  bindings : List (String × String)
  codeCache : Option String

/-- `FunctionChain._update_signature` (lines 347-355): `rtype` from
`funcs[-1]`, `args` from `funcs[0]` (or `'void'` / no arguments when the
chain is empty), and `_bindings` re-projected from the new args. -/
def ChainState.update_signature (st : ChainState) : ChainState :=
  match st.funcs with
  | [] => { st with rtype := "void", args := [], bindings := [] }
  | f :: rest =>
    { st with
      rtype := ((f :: rest).getLast (by simp)).rtype,
      args := f.args,
      bindings := f.args.map (fun a => (a.2, a.1)) }

/-- `FunctionChain.__init__` (lines 339-345): stores the function list,
makes `_deps` the same list, leaves `_code` as None and derives the
signature. -/
def mkFunctionChain (name : String) (funcs : List Function) : ChainState :=
  ChainState.update_signature
    { name := name, funcs := funcs, deps := funcs, rtype := "void",
      args := [], bindings := [], codeCache := none }

/-- `FunctionChain.append` (lines 367-372). -/
def chainAppend (st : ChainState) (f : Function) : ChainState :=
  ChainState.update_signature
    { st with funcs := st.funcs ++ [f], deps := st.deps ++ [f] }

/-- `FunctionChain.insert` (lines 374-379), with Python `list.insert`
index semantics. -/
def chainInsert (st : ChainState) (i : Int) (f : Function) : ChainState :=
  ChainState.update_signature
    { st with funcs := pyInsert st.funcs i f, deps := pyInsert st.deps i f }

/-- `FunctionChain.generate_function_code` (lines 381-396).  `none` models
the IndexError on `self.args[0]` when the return type is not `'void'` but
the chain takes no arguments. -/
def chainGenerateFunctionCode (st : ChainState) : Option String :=
  let argsStr :=
    String.intercalate ", " (st.args.map (fun a => a.1 ++ " " ++ a.2))
  let code := st.rtype ++ " " ++ st.name ++ "(" ++ argsStr ++ ") \x7b\n"
  if st.rtype == "void" then
    some ((st.funcs.foldl
      (fun code fn => code ++ "    " ++ fn.name ++ "();\n") code) ++ "\x7d\n")
  else
    match st.args with
    | [] => none
    | a0 :: _ =>
      let code := st.funcs.reverse.foldl
        (fun code fn => code ++ fn.name ++ "(\n           ")
        (code ++ "    return ")
      some (code ++ "    " ++ a0.2
        ++ String.mk (List.replicate st.funcs.length ')') ++ ";\n" ++ "\x7d\n")

/-- `Function.set_code` (lines 84-111) as called with only `code` from the
lazy `code` property: stores `clean_code(code)` in `_code` and re-derives
`name`, `args`, `rtype` and `_bindings` through the signature parser.
`none` models a `ParseError`. -/
def chainSetCode (st : ChainState) (code : String) : Option ChainState :=
  match parse_function_signature (Function.clean_code code) with
  | none => none
  | some (n, args, rt) =>
    some { st with codeCache := some (Function.clean_code code), name := n,
                   args := args, rtype := rt,
                   bindings := args.map (fun a => (a.2, a.1)) }

/-- `FunctionChain.code` property (lines 357-365): on first access
generates the code and routes it through `set_code`, then returns `_code`;
on later accesses returns the cache unchanged. -/
def chainCodeRead (st : ChainState) : Option (String × ChainState) :=
  match st.codeCache with
  | some c => some (c, st)
  | none =>
    match chainGenerateFunctionCode st with
    | none => none
    | some code =>
      match chainSetCode st code with
      | none => none
      | some st' => some (Function.clean_code code, st')

/-! ## BoundFunction (function.py lines 198-290) -/

/-- A Python string object: `content` is its text, `objId` identifies the
object.  This is needed only where function.py compares strings with `is`
(object identity): two `PyStr`s with different `objId` are distinct
objects even when their contents agree.  The interned `'void'` literal of
function.py gets `objId` 0; a string coming out of the signature parser is
a freshly allocated object, modelled by a nonzero `objId`. -/
structure PyStr where
  content : String
  objId : Nat
deriving DecidableEq

/-- The interned `'void'` literal appearing in function.py line 285. -/
def voidLiteral : PyStr := ⟨"void", 0⟩

/-- Python `x is not y` on strings: object identity, not text equality. -/
def pyIsNot (a b : PyStr) : Bool := a.objId != b.objId

/-- The parent Function of a BoundFunction, as read by
`generate_function_code`: name, return-type string object, args. -/
structure ParentFunction where
  name : String
  rtype : PyStr
  args : List (String × String)

/-- `self._parent.bindings`: the name→type dict projected from the args
(function.py line 104). -/
def ParentFunction.bindings (p : ParentFunction) : List (String × String) :=
  p.args.map (fun a => (a.2, a.1))

/-- `BoundFunction.generate_function_code` (function.py lines 262-290).
`boundArgs` maps an argument name to `(qualifier, new_var_name)`; `none`
models the KeyError on `self._parent.bindings[bname]` when a bound name is
not an argument of the parent.  Line 285 is `ret = "return " if
self._parent.rtype is not 'void' else ""` — an object-identity test,
modelled with `pyIsNot`. -/
def BoundFunction.generate_function_code (parent : ParentFunction)
    (name : String) (boundArgs : List (String × String × String)) :
    Option String := do
  let decls ← boundArgs.foldlM (fun code ba => do
    let dtype ← pyDictGet parent.bindings ba.1
    pure (code ++ ba.2.1 ++ " " ++ dtype ++ " " ++ ba.2.2 ++ ";\n")) ""
  let code := decls ++ "\n"
  let argDefs := (parent.args.filter
    (fun x => (pyDictGet boundArgs x.2).isNone)).map
    (fun x => x.1 ++ " " ++ x.2)
  let code := code ++ parent.rtype.content ++ " " ++ name ++ "("
    ++ String.intercalate ", " argDefs ++ ") \x7b\n"
  let callArgs := parent.args.map (fun a =>
    match pyDictGet boundArgs a.2 with
    | some spec => spec.2
    | none => a.2)
  let ret := if pyIsNot parent.rtype voidLiteral then "return " else ""
  pure (code ++ "    " ++ ret ++ parent.name ++ "("
    ++ String.intercalate ", " callArgs ++ ");\n" ++ "\x7d\n")

/-- The observable state of a BoundFunction: the construction arguments,
the signature fields `set_code` derives from the generated code, and the
`_code` cache.  `_deps` is `[parent]` (line 249) and is untouched
afterwards. -/
structure BoundState where
  parent : ParentFunction
  name : String
  boundArgs : List (String × String × String)
  fname : String
  rtype : String
  args : List (String × String)
  bindings : List (String × String)
  codeCache : Option String

/-- `BoundFunction.__init__` (lines 243-250).  Its last line is
`self.set_code(self.generate_function_code())`: construction itself
generates the wrapper code and caches it through `set_code`.  `none`
models the exceptions escaping from generation or parsing. -/
def mkBoundFunction (parent : ParentFunction) (name : String)
    (boundArgs : List (String × String × String)) : Option BoundState :=
  match BoundFunction.generate_function_code parent name boundArgs with
  | none => none
  | some code =>
    match parse_function_signature (Function.clean_code code) with
    | none => none
    | some (n, args, rt) =>
      some { parent := parent, name := name, boundArgs := boundArgs,
             fname := n, rtype := rt, args := args,
             bindings := args.map (fun a => (a.2, a.1)),
             codeCache := some (Function.clean_code code) }

/-- `BoundFunction.code` property (lines 252-260): generates and caches
through `set_code` when `_code` is None, else returns the cache. -/
def boundCodeRead (st : BoundState) : Option (String × BoundState) :=
  match st.codeCache with
  | some c => some (c, st)
  | none =>
    match BoundFunction.generate_function_code st.parent st.name
        st.boundArgs with
    | none => none
    | some code =>
      match parse_function_signature (Function.clean_code code) with
      | none => none
      | some (n, args, rt) =>
        some (Function.clean_code code,
          { st with fname := n, rtype := rt, args := args,
                    bindings := args.map (fun a => (a.2, a.1)),
                    codeCache := some (Function.clean_code code) })

/-- C2 (code bug): the parent parsed from `void foo(float a, vec2 b)` has a
freshly allocated rtype string object (here `⟨"void", 1⟩`, distinct from
the interned literal `voidLiteral = ⟨"void", 0⟩`).  Binding `b` to
`("uniform", "input_b")` emits the declaration, the reduced header and the
parent call in original argument order as claimed — but with a spurious
`return ` prefix although the parent's return type text is exactly
`"void"`, because line 285 uses `is not 'void'` (object identity).  The
second conjunct shows that with the identical interned object the prefix
is dropped: the emitted prefix depends on object identity, not on the
text, so the claim's "return prefix exactly when rtype is not 'void'"
fails on every parent whose rtype was parsed from code. -/
theorem BoundFunction.generate_function_code_void_return_bug :
    (BoundFunction.generate_function_code
        ⟨"foo", ⟨"void", 1⟩, [("float", "a"), ("vec2", "b")]⟩
        "my_foo" [("b", "uniform", "input_b")]
      = some ("uniform vec2 input_b;\n\nvoid my_foo(float a) \x7b\n    return foo(a, input_b);\n\x7d\n")
      ∧ (PyStr.mk "void" 1).content = "void")
    ∧ BoundFunction.generate_function_code
        ⟨"foo", voidLiteral, [("float", "a"), ("vec2", "b")]⟩
        "my_foo" [("b", "uniform", "input_b")]
      = some ("uniform vec2 input_b;\n\nvoid my_foo(float a) \x7b\n    foo(a, input_b);\n\x7d\n") := by
  decide

/-! ## String-append bookkeeping -/

theorem strAppend_assoc (a b c : String) : a ++ b ++ c = a ++ (b ++ c) :=
  String.ext (by simp [String.data_append])

theorem strAppend_empty (a : String) : a ++ "" = a :=
  String.ext (by simp [String.data_append])

/-- Concatenation of a list of strings. -/
def strConcat : List String → String
  | [] => ""
  | s :: rest => s ++ strConcat rest

theorem chain_flat_fold (l : List Function) (init : String) :
    l.foldl (fun code fn => code ++ "    " ++ fn.name ++ "();\n") init
      = init ++ strConcat (l.map (fun fn => "    " ++ fn.name ++ "();\n")) := by
  induction l generalizing init with
  | nil => rw [List.foldl_nil, List.map_nil, strConcat, strAppend_empty]
  | cons f t ih =>
    rw [List.foldl_cons, ih, List.map_cons, strConcat]
    simp only [strAppend_assoc]

theorem chain_nest_fold (l : List Function) (pre inner : String) :
    l.reverse.foldl (fun code fn => code ++ fn.name ++ "(\n           ") pre
      ++ inner ++ String.mk (List.replicate l.length ')')
    = pre ++ l.foldl
        (fun body fn => fn.name ++ "(\n           " ++ body ++ ")") inner := by
  induction l generalizing inner with
  | nil =>
    rw [List.reverse_nil, List.foldl_nil, List.length_nil, List.foldl_nil]
    show pre ++ inner ++ "" = pre ++ inner
    rw [strAppend_empty]
  | cons f t ih =>
    rw [List.reverse_cons, List.foldl_append, List.foldl_cons, List.foldl_nil,
      List.length_cons, List.foldl_cons]
    have hrep : String.mk (List.replicate (t.length + 1) ')')
        = ")" ++ String.mk (List.replicate t.length ')') := rfl
    rw [hrep]
    have hih := ih (f.name ++ "(\n           " ++ inner ++ ")")
    simp only [strAppend_assoc] at hih ⊢
    exact hih

/-- C3: a FunctionChain with the derived return type `'void'` generates a
body that calls each chained function in list order with no arguments (the
third conjunct is the claim's two-function example verbatim); with a
non-void derived return type it generates one returned expression of
nested calls, first chained function innermost and last outermost, applied
to the wrapper's first argument. -/
theorem FunctionChain.generate_function_code_spec (st : ChainState)
    (a0 : String × String) (rest : List (String × String)) :
    (st.rtype = "void" →
      chainGenerateFunctionCode st
        = some ((st.rtype ++ " " ++ st.name ++ "("
            ++ String.intercalate ", "
                (st.args.map (fun a => a.1 ++ " " ++ a.2))
            ++ ") \x7b\n")
          ++ strConcat (st.funcs.map (fun fn => "    " ++ fn.name ++ "();\n"))
          ++ "\x7d\n")) ∧
    (st.rtype ≠ "void" → st.args = a0 :: rest →
      chainGenerateFunctionCode st
        = some ((st.rtype ++ " " ++ st.name ++ "("
            ++ String.intercalate ", "
                (st.args.map (fun a => a.1 ++ " " ++ a.2))
            ++ ") \x7b\n")
          ++ "    return "
          ++ st.funcs.foldl
              (fun body fn => fn.name ++ "(\n           " ++ body ++ ")")
              ("    " ++ a0.2)
          ++ ";\n" ++ "\x7d\n")) ∧
    chainGenerateFunctionCode (mkFunctionChain "my_func_chain"
        [Function.mk "my_func_1" "void" [] [],
         Function.mk "my_func_2" "void" [] []])
      = some "void my_func_chain() \x7b\n    my_func_1();\n    my_func_2();\n\x7d\n" := by
  refine ⟨?_, ?_, by decide⟩
  · intro hv
    rw [chainGenerateFunctionCode]
    rw [if_pos (by simp [hv])]
    rw [chain_flat_fold]
  · intro hv hargs
    rw [chainGenerateFunctionCode]
    rw [if_neg (by simp [hv])]
    rw [hargs]
    refine congrArg some ?_
    have hnest := chain_nest_fold st.funcs
      ((st.rtype ++ " " ++ st.name ++ "("
          ++ String.intercalate ", "
              ((a0 :: rest).map (fun a => a.1 ++ " " ++ a.2))
          ++ ") \x7b\n") ++ "    return ")
      ("    " ++ a0.2)
    calc st.funcs.reverse.foldl
          (fun code fn => code ++ fn.name ++ "(\n           ")
          ((st.rtype ++ " " ++ st.name ++ "("
            ++ String.intercalate ", "
                ((a0 :: rest).map (fun a => a.1 ++ " " ++ a.2))
            ++ ") \x7b\n") ++ "    return ")
          ++ "    " ++ a0.2 ++ String.mk (List.replicate st.funcs.length ')')
          ++ ";\n" ++ "\x7d\n"
        = (st.funcs.reverse.foldl
            (fun code fn => code ++ fn.name ++ "(\n           ")
            ((st.rtype ++ " " ++ st.name ++ "("
              ++ String.intercalate ", "
                  ((a0 :: rest).map (fun a => a.1 ++ " " ++ a.2))
              ++ ") \x7b\n") ++ "    return ")
            ++ ("    " ++ a0.2)
            ++ String.mk (List.replicate st.funcs.length ')'))
          ++ (";\n" ++ "\x7d\n") := by
          simp only [strAppend_assoc]
      _ = (((st.rtype ++ " " ++ st.name ++ "("
              ++ String.intercalate ", "
                  ((a0 :: rest).map (fun a => a.1 ++ " " ++ a.2))
              ++ ") \x7b\n") ++ "    return ")
            ++ st.funcs.foldl
                (fun body fn => fn.name ++ "(\n           " ++ body ++ ")")
                ("    " ++ a0.2))
          ++ (";\n" ++ "\x7d\n") := by rw [hnest]
      _ = (st.rtype ++ " " ++ st.name ++ "("
            ++ String.intercalate ", "
                ((a0 :: rest).map (fun a => a.1 ++ " " ++ a.2))
            ++ ") \x7b\n")
          ++ "    return "
          ++ st.funcs.foldl
              (fun body fn => fn.name ++ "(\n           " ++ body ++ ")")
              ("    " ++ a0.2)
          ++ ";\n" ++ "\x7d\n" := by simp only [strAppend_assoc]

theorem FunctionChain.generate_function_code_spec_witness :
    chainGenerateFunctionCode (mkFunctionChain "chain2"
        [Function.mk "g1" "vec3" [("vec3", "x")] [],
         Function.mk "g2" "vec3" [("vec3", "y")] []])
      = some (("vec3" ++ " " ++ "chain2" ++ "("
          ++ String.intercalate ", "
              ([("vec3", "x")].map (fun a => a.1 ++ " " ++ a.2))
          ++ ") \x7b\n")
        ++ "    return "
        ++ ([Function.mk "g1" "vec3" [("vec3", "x")] [],
             Function.mk "g2" "vec3" [("vec3", "y")] []].foldl
            (fun body fn => fn.name ++ "(\n           " ++ body ++ ")")
            ("    " ++ "x"))
        ++ ";\n" ++ "\x7d\n") :=
  (FunctionChain.generate_function_code_spec
    (mkFunctionChain "chain2"
      [Function.mk "g1" "vec3" [("vec3", "x")] [],
       Function.mk "g2" "vec3" [("vec3", "y")] []])
    ("vec3", "x") []).2.1 (by decide) (by decide)

/-! ## FunctionChain invariants -/

theorem update_signature_spec (st : ChainState) :
    (st.update_signature).rtype
      = ((st.funcs.getLast?).map Function.rtype).getD "void" ∧
    (st.update_signature).args
      = ((st.funcs.head?).map Function.args).getD [] ∧
    (st.update_signature).bindings
      = (st.update_signature).args.map (fun a => (a.2, a.1)) ∧
    (st.update_signature).funcs = st.funcs ∧
    (st.update_signature).deps = st.deps ∧
    (st.update_signature).name = st.name ∧
    (st.update_signature).codeCache = st.codeCache := by
  cases hf : st.funcs with
  | nil => simp [ChainState.update_signature, hf]
  | cons f rest =>
    rw [ChainState.update_signature, hf]
    simp only [List.head?_cons, Option.map_some, Option.getD_some]
    rw [List.getLast?_eq_getLast_of_ne_nil (List.cons_ne_nil f rest)]
    simp

theorem chainCodeRead_preserves {st st' : ChainState} {c : String}
    (h : chainCodeRead st = some (c, st')) :
    st'.funcs = st.funcs ∧ st'.deps = st.deps ∧ st'.codeCache = some c := by
  rw [chainCodeRead] at h
  split at h
  · rename_i c0 hc
    injection h with h1
    injection h1 with hcc hst
    subst hst
    exact ⟨rfl, rfl, by rw [hc, hcc]⟩
  · rename_i hc
    split at h
    · cases h
    · rename_i code hg
      split at h
      · cases h
      · rename_i st1 hs
        injection h with h1
        injection h1 with hcc hst
        subst hst
        rw [chainSetCode] at hs
        split at hs
        · cases hs
        · rename_i n args rt hp
          injection hs with hs1
          subst hs1
          exact ⟨rfl, rfl, by rw [← hcc]⟩

/-- The FunctionChain states reachable through its entry points:
construction, `append`, `insert`, and reads of the `code` property. -/
inductive ChainReachable : ChainState → Prop where
  | init (name : String) (funcs : List Function) :
      ChainReachable (mkFunctionChain name funcs)
  | append {st : ChainState} (f : Function) :
      ChainReachable st → ChainReachable (chainAppend st f)
  | insert {st : ChainState} (i : Int) (f : Function) :
      ChainReachable st → ChainReachable (chainInsert st i f)
  | read {st st' : ChainState} {c : String} :
      ChainReachable st → chainCodeRead st = some (c, st') →
      ChainReachable st'

/-- The derived-signature invariant of claim C4. -/
def ChainInvariant (st : ChainState) : Prop :=
  st.rtype = ((st.funcs.getLast?).map Function.rtype).getD "void" ∧
  st.args = ((st.funcs.head?).map Function.args).getD [] ∧
  st.bindings = st.args.map (fun a => (a.2, a.1)) ∧
  st.deps = st.funcs

theorem chainReachable_deps_eq {st : ChainState} (h : ChainReachable st) :
    st.deps = st.funcs := by
  induction h with
  | init name funcs =>
    obtain ⟨_, _, _, hfn, hdp, _, _⟩ := update_signature_spec
      { name := name, funcs := funcs, deps := funcs, rtype := "void",
        args := [], bindings := [], codeCache := none }
    rw [mkFunctionChain, hfn, hdp]
  | append f hr ih =>
    obtain ⟨_, _, _, hfn, hdp, _, _⟩ := update_signature_spec _
    rw [chainAppend, hfn, hdp]
    show _ ++ [f] = _ ++ [f]
    rw [ih]
  | insert i f hr ih =>
    obtain ⟨_, _, _, hfn, hdp, _, _⟩ := update_signature_spec _
    rw [chainInsert, hfn, hdp]
    show pyInsert _ i f = pyInsert _ i f
    rw [ih]
  | read hr hread ih =>
    obtain ⟨hfn, hdp, _⟩ := chainCodeRead_preserves hread
    rw [hfn, hdp, ih]

theorem update_signature_invariant (st : ChainState)
    (hdeps : st.deps = st.funcs) : ChainInvariant st.update_signature := by
  obtain ⟨h1, h2, h3, h4, h5, _, _⟩ := update_signature_spec st
  exact ⟨by rw [h1, h4], by rw [h2, h4], h3, by rw [h4, h5, hdeps]⟩

/-- C4: after construction and after every `append` or `insert` on a
reachable FunctionChain state, the chain's `rtype` is the last chained
function's `rtype` (`'void'` when empty), its `args` are the first chained
function's args (empty when empty), its `bindings` dict is the
name-to-type projection of those args, and its `_deps` list is identical
to its `_funcs` list. -/
theorem FunctionChain.signature_invariant :
    (∀ name funcs, ChainInvariant (mkFunctionChain name funcs)) ∧
    (∀ st f, ChainReachable st → ChainInvariant (chainAppend st f)) ∧
    (∀ st i f, ChainReachable st → ChainInvariant (chainInsert st i f)) := by
  refine ⟨?_, ?_, ?_⟩
  · intro name funcs
    exact update_signature_invariant _ rfl
  · intro st f hr
    apply update_signature_invariant
    show st.deps ++ [f] = st.funcs ++ [f]
    rw [chainReachable_deps_eq hr]
  · intro st i f hr
    apply update_signature_invariant
    show pyInsert st.deps i f = pyInsert st.funcs i f
    rw [chainReachable_deps_eq hr]

theorem FunctionChain.signature_invariant_witness :
    ChainInvariant (chainAppend
      (mkFunctionChain "chain" [Function.mk "f1" "void" [] []])
      (Function.mk "f2" "vec4" [("vec4", "x")] [])) :=
  FunctionChain.signature_invariant.2.1
    (mkFunctionChain "chain" [Function.mk "f1" "void" [] []])
    (Function.mk "f2" "vec4" [("vec4", "x")] [])
    (ChainReachable.init "chain" [Function.mk "f1" "void" [] []])

/-- C10: `append` and `insert` recompute the derived signature (for
`append` the new `rtype` is the appended function's `rtype`) but never
clear the `_code` cache: a populated cache survives both mutators
unchanged, and a subsequent read of the `code` property still returns the
stale cached string, until `set_code` is invoked explicitly. -/
theorem FunctionChain.cache_survives_mutation (st : ChainState)
    (f g : Function) (i : Int) (s : String) (h : st.codeCache = some s) :
    (chainAppend st f).codeCache = some s ∧
    (chainInsert st i g).codeCache = some s ∧
    chainCodeRead (chainAppend st f) = some (s, chainAppend st f) ∧
    chainCodeRead (chainInsert st i g) = some (s, chainInsert st i g) ∧
    (chainAppend st f).rtype = f.rtype := by
  obtain ⟨hrt, _, _, _, _, _, hccA⟩ := update_signature_spec
    { st with funcs := st.funcs ++ [f], deps := st.deps ++ [f] }
  obtain ⟨_, _, _, _, _, _, hccI⟩ := update_signature_spec
    { st with funcs := pyInsert st.funcs i g, deps := pyInsert st.deps i g }
  have hA : (chainAppend st f).codeCache = some s := by
    rw [chainAppend, hccA]
    exact h
  have hI : (chainInsert st i g).codeCache = some s := by
    rw [chainInsert, hccI]
    exact h
  refine ⟨hA, hI, ?_, ?_, ?_⟩
  · rw [chainCodeRead, hA]
  · rw [chainCodeRead, hI]
  · rw [chainAppend, hrt]
    show ((st.funcs ++ [f]).getLast?.map Function.rtype).getD "void" = _
    rw [List.getLast?_concat]
    rfl

theorem FunctionChain.cache_survives_mutation_witness :
    (chainAppend
        ⟨"c", [Function.mk "f1" "void" [] []],
          [Function.mk "f1" "void" [] []], "void", [], [],
          some "void c() \x7b\n    f1();\n\x7d"⟩
        (Function.mk "f2" "vec4" [("vec4", "x")] [])).codeCache
      = some "void c() \x7b\n    f1();\n\x7d" ∧
    (chainInsert
        ⟨"c", [Function.mk "f1" "void" [] []],
          [Function.mk "f1" "void" [] []], "void", [], [],
          some "void c() \x7b\n    f1();\n\x7d"⟩
        0 (Function.mk "f3" "void" [] [])).codeCache
      = some "void c() \x7b\n    f1();\n\x7d" ∧
    chainCodeRead (chainAppend
        ⟨"c", [Function.mk "f1" "void" [] []],
          [Function.mk "f1" "void" [] []], "void", [], [],
          some "void c() \x7b\n    f1();\n\x7d"⟩
        (Function.mk "f2" "vec4" [("vec4", "x")] []))
      = some ("void c() \x7b\n    f1();\n\x7d",
        chainAppend
          ⟨"c", [Function.mk "f1" "void" [] []],
            [Function.mk "f1" "void" [] []], "void", [], [],
            some "void c() \x7b\n    f1();\n\x7d"⟩
          (Function.mk "f2" "vec4" [("vec4", "x")] [])) ∧
    chainCodeRead (chainInsert
        ⟨"c", [Function.mk "f1" "void" [] []],
          [Function.mk "f1" "void" [] []], "void", [], [],
          some "void c() \x7b\n    f1();\n\x7d"⟩
        0 (Function.mk "f3" "void" [] []))
      = some ("void c() \x7b\n    f1();\n\x7d",
        chainInsert
          ⟨"c", [Function.mk "f1" "void" [] []],
            [Function.mk "f1" "void" [] []], "void", [], [],
            some "void c() \x7b\n    f1();\n\x7d"⟩
          0 (Function.mk "f3" "void" [] [])) ∧
    (chainAppend
        ⟨"c", [Function.mk "f1" "void" [] []],
          [Function.mk "f1" "void" [] []], "void", [], [],
          some "void c() \x7b\n    f1();\n\x7d"⟩
        (Function.mk "f2" "vec4" [("vec4", "x")] [])).rtype
      = (Function.mk "f2" "vec4" [("vec4", "x")] []).rtype :=
  FunctionChain.cache_survives_mutation
    ⟨"c", [Function.mk "f1" "void" [] []],
      [Function.mk "f1" "void" [] []], "void", [], [],
      some "void c() \x7b\n    f1();\n\x7d"⟩
    (Function.mk "f2" "vec4" [("vec4", "x")] [])
    (Function.mk "f3" "void" [] []) 0
    "void c() \x7b\n    f1();\n\x7d" rfl

/-! ## Laziness and caching of generated code (claim C8) -/

/-- C8 counterexample: constructing a BoundFunction already populates its
`_code` cache (with the cleaned generated wrapper code), because
`BoundFunction.__init__` ends in
`self.set_code(self.generate_function_code())` — so for BoundFunction the
code is generated by construction itself, not lazily on the first read of
the `code` property as the claim states. -/
theorem BoundFunction.eager_generation_counterexample :
    (mkBoundFunction ⟨"foo", ⟨"vec4", 1⟩, [("float", "a"), ("vec2", "b")]⟩
        "my_foo" [("b", "uniform", "input_b")]).map (fun st => st.codeCache)
      = some (some "uniform vec2 input_b;\n\nvec4 my_foo(float a) \x7b\n    return foo(a, input_b);\n\x7d") := by
  decide

/-- C8 (amended): a FunctionChain's code is generated lazily — its
construction leaves the `_code` cache empty, the first read of the `code`
property generates, stores and returns the cleaned code, and every further
read returns the cached string with no state transition.  A BoundFunction
instead generates its code eagerly: construction itself calls
`set_code(generate_function_code())`, so right after `__init__` the cache
already holds the cleaned generated code, and every read of `code` returns
it without a transition. -/
theorem lazy_code_cache_spec :
    (∀ name funcs, (mkFunctionChain name funcs).codeCache = none) ∧
    (∀ st c st', chainCodeRead st = some (c, st') →
      st'.codeCache = some c ∧ chainCodeRead st' = some (c, st')) ∧
    (∀ p n b st, mkBoundFunction p n b = some st →
      ∃ code, BoundFunction.generate_function_code p n b = some code ∧
        st.codeCache = some (Function.clean_code code) ∧
        boundCodeRead st = some (Function.clean_code code, st)) := by
  refine ⟨?_, ?_, ?_⟩
  · intro name funcs
    obtain ⟨_, _, _, _, _, _, hcc⟩ := update_signature_spec
      { name := name, funcs := funcs, deps := funcs, rtype := "void",
        args := [], bindings := [], codeCache := none }
    rw [mkFunctionChain, hcc]
  · intro st c st' h
    obtain ⟨_, _, hcc⟩ := chainCodeRead_preserves h
    exact ⟨hcc, by rw [chainCodeRead, hcc]⟩
  · intro p n b st h
    rw [mkBoundFunction] at h
    split at h
    · cases h
    · rename_i code hg
      split at h
      · cases h
      · rename_i n' args rt hp
        injection h with h1
        subst h1
        exact ⟨code, hg, rfl, rfl⟩

theorem lazy_code_cache_spec_witness :
    (mkFunctionChain "c" [Function.mk "f1" "void" [] []]).codeCache = none ∧
    ((⟨"c", [Function.mk "f1" "void" [] []], [Function.mk "f1" "void" [] []],
        "void", [], [],
        some "void c() \x7b\n    f1();\n\x7d"⟩ : ChainState).codeCache
      = some "void c() \x7b\n    f1();\n\x7d" ∧
     chainCodeRead ⟨"c", [Function.mk "f1" "void" [] []],
        [Function.mk "f1" "void" [] []], "void", [], [],
        some "void c() \x7b\n    f1();\n\x7d"⟩
      = some ("void c() \x7b\n    f1();\n\x7d",
        ⟨"c", [Function.mk "f1" "void" [] []],
          [Function.mk "f1" "void" [] []], "void", [], [],
          some "void c() \x7b\n    f1();\n\x7d"⟩)) ∧
    (∃ code, BoundFunction.generate_function_code
        ⟨"foo", ⟨"vec4", 1⟩, [("float", "a"), ("vec2", "b")]⟩
        "my_foo" [("b", "uniform", "input_b")] = some code ∧
      (⟨⟨"foo", ⟨"vec4", 1⟩, [("float", "a"), ("vec2", "b")]⟩, "my_foo",
          [("b", "uniform", "input_b")], "my_foo", "vec4", [("float", "a")],
          [("a", "float")],
          some "uniform vec2 input_b;\n\nvec4 my_foo(float a) \x7b\n    return foo(a, input_b);\n\x7d"⟩
            : BoundState).codeCache
        = some (Function.clean_code code) ∧
      boundCodeRead ⟨⟨"foo", ⟨"vec4", 1⟩, [("float", "a"), ("vec2", "b")]⟩,
          "my_foo", [("b", "uniform", "input_b")], "my_foo", "vec4",
          [("float", "a")], [("a", "float")],
          some "uniform vec2 input_b;\n\nvec4 my_foo(float a) \x7b\n    return foo(a, input_b);\n\x7d"⟩
        = some (Function.clean_code code,
          ⟨⟨"foo", ⟨"vec4", 1⟩, [("float", "a"), ("vec2", "b")]⟩, "my_foo",
            [("b", "uniform", "input_b")], "my_foo", "vec4",
            [("float", "a")], [("a", "float")],
            some "uniform vec2 input_b;\n\nvec4 my_foo(float a) \x7b\n    return foo(a, input_b);\n\x7d"⟩)) :=
  ⟨lazy_code_cache_spec.1 "c" [Function.mk "f1" "void" [] []],
   lazy_code_cache_spec.2.1
     (mkFunctionChain "c" [Function.mk "f1" "void" [] []])
     "void c() \x7b\n    f1();\n\x7d"
     ⟨"c", [Function.mk "f1" "void" [] []], [Function.mk "f1" "void" [] []],
       "void", [], [], some "void c() \x7b\n    f1();\n\x7d"⟩ rfl,
   lazy_code_cache_spec.2.2
     ⟨"foo", ⟨"vec4", 1⟩, [("float", "a"), ("vec2", "b")]⟩ "my_foo"
     [("b", "uniform", "input_b")]
     ⟨⟨"foo", ⟨"vec4", 1⟩, [("float", "a"), ("vec2", "b")]⟩, "my_foo",
       [("b", "uniform", "input_b")], "my_foo", "vec4", [("float", "a")],
       [("a", "float")],
       some "uniform vec2 input_b;\n\nvec4 my_foo(float a) \x7b\n    return foo(a, input_b);\n\x7d"⟩
     rfl⟩

/-! ## Facts about the dict model -/

theorem pyDictGet_isSome_of_mem {α : Type} {pairs : List (String × α)}
    {k : String} (h : k ∈ pairs.map (fun p => p.1)) :
    (pyDictGet pairs k).isSome = true := by
  obtain ⟨q, hq, hk⟩ := List.mem_map.mp h
  have hqf : q ∈ pairs.filter (fun p => p.1 == k) :=
    List.mem_filter.mpr ⟨hq, by simp [hk]⟩
  have hne : (pairs.filter (fun p => p.1 == k)).map (fun p => p.2) ≠ [] :=
    List.ne_nil_of_mem (List.mem_map_of_mem _ hqf)
  rw [pyDictGet]
  cases hg : ((pairs.filter (fun p => p.1 == k)).map (fun p => p.2)).getLast?
  · rw [List.getLast?_eq_none_iff] at hg
    exact absurd hg hne
  · rfl

theorem pyDictGet_eq_none_of_not_mem {α : Type} {pairs : List (String × α)}
    {k : String} (h : k ∉ pairs.map (fun p => p.1)) :
    pyDictGet pairs k = none := by
  have hfil : pairs.filter (fun p => p.1 == k) = [] := by
    rw [List.filter_eq_nil_iff]
    intro p hp hcontra
    exact h (List.mem_map.mpr ⟨p, hp, by simpa using hcontra⟩)
  rw [pyDictGet, hfil]
  rfl

theorem pyDictGet_isSome_iff {α : Type} (pairs : List (String × α))
    (k : String) :
    (pyDictGet pairs k).isSome = true ↔ k ∈ pairs.map (fun p => p.1) := by
  constructor
  · intro h
    by_contra hmem
    rw [pyDictGet_eq_none_of_not_mem hmem] at h
    cases h
  · exact pyDictGet_isSome_of_mem

theorem pyDictGet_append_ne {α : Type} {pairs : List (String × α)}
    {q : String × α} {k : String} (h : q.1 ≠ k) :
    pyDictGet (pairs ++ [q]) k = pyDictGet pairs k := by
  rw [pyDictGet, pyDictGet, List.filter_append]
  have hqk : (q.1 == k) = false := by simp [h]
  have hq : [q].filter (fun p => p.1 == k) = [] := by
    rw [List.filter_cons, hqk]
    simp
  rw [hq, List.append_nil]

/-! ## FragmentFunction (function.py lines 500-590) -/

/-- The FragmentFunction state that claims C5 and C7 need: the bindings
dicts of the two wrapped functions and the linked-variable pairs
`(vertex_name, fragment_name)`.  The wrapped function objects themselves
and `_vert_hook` are read by no claim and are not modelled. -/
structure FragFunctionData where
  fragBindings : List (String × String)
  vertBindings : List (String × String)
  linkVars : List (String × String)
deriving DecidableEq

/-- The exceptions raised eagerly by `FragmentFunction.__init__`. -/
inductive FragmentInitError : Type where
  | nameErrorVert (n : String)
  | nameErrorFrag (n : String)
  | typeMismatch (v f vt ft : String)
deriving DecidableEq

/-- The validation loop of `FragmentFunction.__init__` (lines 526-540):
for each linked pair, the vertex name must be bindable in the vertex
function, the fragment name in the fragment function, and the two declared
types must agree. -/
def checkLinkVars (fragBindings vertBindings : List (String × String)) :
    List (String × String) → Except FragmentInitError Unit
  | [] => Except.ok ()
  | (vname, fname) :: rest =>
    match pyDictGet vertBindings vname with
    | none => Except.error (.nameErrorVert vname)
    | some vtype =>
      match pyDictGet fragBindings fname with
      | none => Except.error (.nameErrorFrag fname)
      | some ftype =>
        if vtype ≠ ftype then
          Except.error (.typeMismatch vname fname vtype ftype)
        else checkLinkVars fragBindings vertBindings rest

/-- `FragmentFunction.__init__` (lines 519-540): stores the pieces and
eagerly validates every linked pair; on a validation failure the exception
escapes the constructor, nothing is constructed, and hence no code can be
generated from the instance. -/
def mkFragmentFunction (fragBindings vertBindings : List (String × String))
    (linkVars : List (String × String)) :
    Except FragmentInitError FragFunctionData :=
  match checkLinkVars fragBindings vertBindings linkVars with
  | Except.error e => Except.error e
  | Except.ok _ => Except.ok ⟨fragBindings, vertBindings, linkVars⟩

theorem checkLinkVars_cons_none {fragB vertB : List (String × String)}
    {vname fname : String} {rest : List (String × String)}
    (hv : pyDictGet vertB vname = none) :
    checkLinkVars fragB vertB ((vname, fname) :: rest)
      = Except.error (.nameErrorVert vname) := by
  rw [checkLinkVars, hv]

theorem checkLinkVars_cons_some_none {fragB vertB : List (String × String)}
    {vname fname vt : String} {rest : List (String × String)}
    (hv : pyDictGet vertB vname = some vt)
    (hf : pyDictGet fragB fname = none) :
    checkLinkVars fragB vertB ((vname, fname) :: rest)
      = Except.error (.nameErrorFrag fname) := by
  rw [checkLinkVars, hv, hf]

theorem checkLinkVars_cons_some_some {fragB vertB : List (String × String)}
    {vname fname vt ft : String} {rest : List (String × String)}
    (hv : pyDictGet vertB vname = some vt)
    (hf : pyDictGet fragB fname = some ft) :
    checkLinkVars fragB vertB ((vname, fname) :: rest)
      = if vt ≠ ft then Except.error (.typeMismatch vname fname vt ft)
        else checkLinkVars fragB vertB rest := by
  rw [checkLinkVars, hv, hf]

theorem checkLinkVars_ok_iff (fragB vertB : List (String × String))
    (linkVars : List (String × String)) :
    checkLinkVars fragB vertB linkVars = Except.ok ()
      ↔ ∀ p ∈ linkVars, ∃ t, pyDictGet vertB p.1 = some t ∧
          pyDictGet fragB p.2 = some t := by
  induction linkVars with
  | nil => simp [checkLinkVars]
  | cons p rest ih =>
    obtain ⟨vname, fname⟩ := p
    cases hv : pyDictGet vertB vname with
    | none =>
      rw [checkLinkVars_cons_none hv]
      constructor
      · intro h
        cases h
      · intro h
        obtain ⟨t, hvt, _⟩ := h (vname, fname) (List.mem_cons_self _ _)
        rw [hv] at hvt
        cases hvt
    | some vt =>
      cases hf : pyDictGet fragB fname with
      | none =>
        rw [checkLinkVars_cons_some_none hv hf]
        constructor
        · intro h
          cases h
        · intro h
          obtain ⟨t, _, hft⟩ := h (vname, fname) (List.mem_cons_self _ _)
          rw [hf] at hft
          cases hft
      | some ft =>
        rw [checkLinkVars_cons_some_some hv hf]
        by_cases hne : vt ≠ ft
        · rw [if_pos hne]
          constructor
          · intro h
            cases h
          · intro h
            obtain ⟨t, hvt, hft⟩ := h (vname, fname) (List.mem_cons_self _ _)
            rw [hv] at hvt
            rw [hf] at hft
            injection hvt with hvt
            injection hft with hft
            exact absurd (hvt.trans hft.symm) hne
        · rw [if_neg hne]
          push_neg at hne
          rw [ih]
          constructor
          · intro h q hq
            rcases List.mem_cons.mp hq with rfl | hmem
            · exact ⟨vt, hv, by rw [hf, hne]⟩
            · exact h q hmem
          · intro h q hq
            exact h q (List.mem_cons_of_mem _ hq)

theorem checkLinkVars_first_failure (fragB vertB : List (String × String))
    (pre : List (String × String)) (v f : String)
    (rest : List (String × String))
    (hpre : ∀ p ∈ pre, ∃ t, pyDictGet vertB p.1 = some t ∧
        pyDictGet fragB p.2 = some t) :
    (pyDictGet vertB v = none →
      checkLinkVars fragB vertB (pre ++ (v, f) :: rest)
        = Except.error (.nameErrorVert v)) ∧
    (∀ vt, pyDictGet vertB v = some vt → pyDictGet fragB f = none →
      checkLinkVars fragB vertB (pre ++ (v, f) :: rest)
        = Except.error (.nameErrorFrag f)) ∧
    (∀ vt ft, pyDictGet vertB v = some vt → pyDictGet fragB f = some ft →
      vt ≠ ft →
      checkLinkVars fragB vertB (pre ++ (v, f) :: rest)
        = Except.error (.typeMismatch v f vt ft)) := by
  induction pre with
  | nil =>
    refine ⟨?_, ?_, ?_⟩
    · intro hv
      rw [List.nil_append, checkLinkVars_cons_none hv]
    · intro vt hv hf
      rw [List.nil_append, checkLinkVars_cons_some_none hv hf]
    · intro vt ft hv hf hne
      rw [List.nil_append, checkLinkVars_cons_some_some hv hf, if_pos hne]
  | cons q pre ih =>
    obtain ⟨t, hqv, hqf⟩ := hpre q (List.mem_cons_self _ _)
    have ih' := ih (fun p hp => hpre p (List.mem_cons_of_mem _ hp))
    refine ⟨?_, ?_, ?_⟩
    · intro hv
      rw [List.cons_append, checkLinkVars_cons_some_some hqv hqf,
        if_neg (by simp)]
      exact ih'.1 hv
    · intro vt hv hf
      rw [List.cons_append, checkLinkVars_cons_some_some hqv hqf,
        if_neg (by simp)]
      exact ih'.2.1 vt hv hf
    · intro vt ft hv hf hne
      rw [List.cons_append, checkLinkVars_cons_some_some hqv hqf,
        if_neg (by simp)]
      exact ih'.2.2 vt ft hv hf hne

/-- C7: FragmentFunction construction validates every pair in `link_vars`
eagerly.  It succeeds exactly when each linked pair resolves, with equal
declared types, on both sides; and at the first violating pair it raises
immediately — the vertex-side NameError when the vertex name is not
bindable, the fragment-side NameError when the fragment name is not
bindable, and the TypeError (type mismatch) when the two declared types
differ.  On any such failure the constructor returns no instance, so no
code can be generated from it. -/
theorem FragmentFunction.init_validation
    (fragB vertB : List (String × String))
    (linkVars pre rest : List (String × String)) (v f : String)
    (hsplit : linkVars = pre ++ (v, f) :: rest)
    (hpre : ∀ p ∈ pre, ∃ t, pyDictGet vertB p.1 = some t ∧
        pyDictGet fragB p.2 = some t) :
    (mkFragmentFunction fragB vertB linkVars
        = Except.ok ⟨fragB, vertB, linkVars⟩
      ↔ ∀ p ∈ linkVars, ∃ t, pyDictGet vertB p.1 = some t ∧
          pyDictGet fragB p.2 = some t) ∧
    (pyDictGet vertB v = none →
      mkFragmentFunction fragB vertB linkVars
        = Except.error (.nameErrorVert v)) ∧
    (∀ vt, pyDictGet vertB v = some vt → pyDictGet fragB f = none →
      mkFragmentFunction fragB vertB linkVars
        = Except.error (.nameErrorFrag f)) ∧
    (∀ vt ft, pyDictGet vertB v = some vt → pyDictGet fragB f = some ft →
      vt ≠ ft →
      mkFragmentFunction fragB vertB linkVars
        = Except.error (.typeMismatch v f vt ft)) := by
  have hfail := checkLinkVars_first_failure fragB vertB pre v f rest hpre
  refine ⟨?_, ?_, ?_, ?_⟩
  · rw [← checkLinkVars_ok_iff]
    constructor
    · intro h
      rw [mkFragmentFunction] at h
      cases hc : checkLinkVars fragB vertB linkVars with
      | error e =>
        rw [hc] at h
        cases h
      | ok u =>
        cases u
        rfl
    · intro h
      rw [mkFragmentFunction, h]
  · intro hv
    rw [mkFragmentFunction, hsplit, hfail.1 hv]
  · intro vt hv hf
    rw [mkFragmentFunction, hsplit, hfail.2.1 vt hv hf]
  · intro vt ft hv hf hne
    rw [mkFragmentFunction, hsplit, hfail.2.2 vt ft hv hf hne]

theorem FragmentFunction.init_validation_witness :
    (mkFragmentFunction [("c", "vec4")] [("c", "vec3")] [("c", "c")]
      = Except.error (.typeMismatch "c" "c" "vec3" "vec4")) ∧
    (mkFragmentFunction [("c", "vec3")] [("c", "vec3")] [("c", "c")]
      = Except.ok ⟨[("c", "vec3")], [("c", "vec3")], [("c", "c")]⟩) :=
  ⟨(FragmentFunction.init_validation [("c", "vec4")] [("c", "vec3")]
      [("c", "c")] [] [] "c" "c" rfl (by simp)).2.2.2
      "vec3" "vec4" (by decide) (by decide) (by decide),
   (FragmentFunction.init_validation [("c", "vec3")] [("c", "vec3")]
      [("c", "c")] [] [] "c" "c" rfl (by simp)).1.mpr (by decide)⟩

/-! ## FunctionTemplate (function.py lines 399-496) -/

/-- A parsed `string.Template`: literal pieces and `$name` placeholders. -/
inductive TemplateTok : Type where
  | lit (s : String)
  | var (n : String)
deriving DecidableEq

/-- The FunctionTemplate state the claims need: the parsed template and
the `_bindings` dict (variable name → declared type).  `deps` and the
signature fields derived by the constructor's fake substitution take part
in no claim and are omitted. -/
structure FunctionTemplate where
  template : List TemplateTok
  bindings : List (String × String)

/-- `string.Template.substitute(**subs)`: replaces every `$name` with
`subs[name]`; a placeholder without a value raises KeyError (`none`). -/
def substituteTemplate (toks : List TemplateTok)
    (subs : List (String × String)) : Option String :=
  match toks with
  | [] => some ""
  | .lit s :: rest => (substituteTemplate rest subs).map (fun r => s ++ r)
  | .var n :: rest =>
    match pyDictGet subs n with
    | none => none
    | some v => (substituteTemplate rest subs).map (fun r => v ++ r)

/-- All placeholders of the template are among the given names (the
FunctionTemplate constructor guarantees this for the declared bindings
plus `func_name`, since it already performs a fake substitution with
exactly those names). -/
def templateCovered (toks : List TemplateTok) (names : List String) : Bool :=
  toks.all (fun t =>
    match t with
    | .lit _ => true
    | .var v => names.contains v)

/-- The exceptions escaping `FunctionTemplate.bind`. -/
inductive TemplateBindError : Type where
  | valueErrorRemove (n : String)
  | keyErrorNotBindable (n : String)
  | missingSubstitution (ns : List String)
  | keyErrorSubstitute
deriving DecidableEq

/-- The keyword loop of `FunctionTemplate.bind` (lines 481-489): for each
supplied keyword, `var_names.remove(var_name)` — raising ValueError when
the name is not among the remaining declared names — then record the
substitution `subs[var_name] = var_spec[1]` and emit the declaration
`var_spec[0] declared_type var_spec[1];`.  (The source reads only slots
`[0]` and `[1]` of the spec tuple, so the spec is modelled as that pair;
its KeyError branch for an unbindable name is unreachable, because a name
that survived `remove` is always a declared binding.) -/
def templateBindLoop (tplBindings : List (String × String)) :
    List String → List (String × String) → String →
    List (String × (String × String)) →
    Except TemplateBindError (List String × List (String × String) × String)
  | varNames, subs, code, [] => Except.ok (varNames, subs, code)
  | varNames, subs, code, (vn, spec) :: rest =>
    if vn ∈ varNames then
      match pyDictGet tplBindings vn with
      | some dtype =>
        templateBindLoop tplBindings (varNames.erase vn)
          (subs ++ [(vn, spec.2)])
          (code ++ spec.1 ++ " " ++ dtype ++ " " ++ spec.2 ++ ";\n") rest
      | none => Except.error (.keyErrorNotBindable vn)
    else Except.error (.valueErrorRemove vn)

/-- `FunctionTemplate.bind` (lines 463-496): run the keyword loop over a
fresh copy of the declared names, fail on leftover declared names,
substitute the template, and return the code handed to
`Function(code, deps=self.deps[:])`. -/
def FunctionTemplate.bind (tpl : FunctionTemplate) (name : String)
    (kwds : List (String × (String × String))) :
    Except TemplateBindError String :=
  match templateBindLoop tpl.bindings (tpl.bindings.map (fun b => b.1))
      [("func_name", name)] "" kwds with
  | Except.error e => Except.error e
  | Except.ok (varNames, subs, code) =>
    if varNames.isEmpty then
      match substituteTemplate tpl.template subs with
      | none => Except.error .keyErrorSubstitute
      | some t => Except.ok (code ++ t)
    else Except.error (.missingSubstitution varNames)

theorem FunctionTemplate_bind_eq_of_loop_ok {tpl : FunctionTemplate}
    {name : String} {kwds : List (String × (String × String))}
    {varNames : List String} {subs : List (String × String)} {code : String}
    (h : templateBindLoop tpl.bindings (tpl.bindings.map (fun b => b.1))
        [("func_name", name)] "" kwds = Except.ok (varNames, subs, code)) :
    tpl.bind name kwds
      = if varNames.isEmpty then
          match substituteTemplate tpl.template subs with
          | none => Except.error .keyErrorSubstitute
          | some t => Except.ok (code ++ t)
        else Except.error (.missingSubstitution varNames) := by
  rw [FunctionTemplate.bind, h]

theorem FunctionTemplate_bind_eq_of_loop_error {tpl : FunctionTemplate}
    {name : String} {kwds : List (String × (String × String))}
    {e : TemplateBindError}
    (h : templateBindLoop tpl.bindings (tpl.bindings.map (fun b => b.1))
        [("func_name", name)] "" kwds = Except.error e) :
    tpl.bind name kwds = Except.error e := by
  rw [FunctionTemplate.bind, h]

theorem strEmpty_append (a : String) : "" ++ a = a :=
  String.ext (by simp [String.data_append])

theorem templateBindLoop_cons_mem {tplBindings : List (String × String)}
    {varNames : List String} {subs : List (String × String)} {code : String}
    {vn : String} {spec : String × String}
    {rest : List (String × (String × String))} {dtype : String}
    (hv : vn ∈ varNames) (hd : pyDictGet tplBindings vn = some dtype) :
    templateBindLoop tplBindings varNames subs code ((vn, spec) :: rest)
      = templateBindLoop tplBindings (varNames.erase vn)
          (subs ++ [(vn, spec.2)])
          (code ++ spec.1 ++ " " ++ dtype ++ " " ++ spec.2 ++ ";
") rest := by
  rw [templateBindLoop, if_pos hv, hd]

theorem templateBindLoop_cons_not_mem {tplBindings : List (String × String)}
    {varNames : List String} {subs : List (String × String)} {code : String}
    {vn : String} {spec : String × String}
    {rest : List (String × (String × String))}
    (hv : vn ∉ varNames) :
    templateBindLoop tplBindings varNames subs code ((vn, spec) :: rest)
      = Except.error (.valueErrorRemove vn) := by
  rw [templateBindLoop, if_neg hv]

theorem templateBindLoop_ok (tplBindings : List (String × String))
    (kwds : List (String × (String × String))) :
    ∀ (varNames : List String) (subs : List (String × String))
      (code : String),
    (kwds.map (fun kv => kv.1)).Nodup →
    (∀ k ∈ kwds.map (fun kv => kv.1), k ∈ varNames) →
    (∀ k ∈ varNames, k ∈ tplBindings.map (fun b => b.1)) →
    templateBindLoop tplBindings varNames subs code kwds
      = Except.ok (kwds.foldl (fun vs kv => vs.erase kv.1) varNames,
          subs ++ kwds.map (fun kv => (kv.1, kv.2.2)),
          code ++ strConcat (kwds.map (fun kv =>
            kv.2.1 ++ " " ++ ((pyDictGet tplBindings kv.1).getD "") ++ " "
              ++ kv.2.2 ++ ";\n"))) := by
  induction kwds with
  | nil =>
    intro varNames subs code hnd hsub hbind
    rw [templateBindLoop]
    simp [strConcat, strAppend_empty]
  | cons kv rest ih =>
    intro varNames subs code hnd hsub hbind
    obtain ⟨vn, spec⟩ := kv
    have hv : vn ∈ varNames := hsub vn (by simp)
    have hvb : vn ∈ tplBindings.map (fun b => b.1) := hbind vn hv
    have hvs : (pyDictGet tplBindings vn).isSome = true :=
      pyDictGet_isSome_of_mem hvb
    obtain ⟨dtype, hd⟩ := Option.isSome_iff_exists.mp hvs
    rw [List.map_cons] at hnd
    have hnd' := hnd.of_cons
    have hvn_not : vn ∉ rest.map (fun kv => kv.1) :=
      (List.nodup_cons.mp hnd).1
    rw [templateBindLoop_cons_mem hv hd,
      ih (varNames.erase vn) (subs ++ [(vn, spec.2)]) _ hnd'
        (fun k hk => (List.mem_erase_of_ne
            (fun he => hvn_not (by rw [← he]; exact hk))).mpr
          (hsub k (List.mem_cons_of_mem _ hk)))
        (fun k hk => hbind k (List.mem_of_mem_erase hk))]
    simp [List.foldl_cons, hd, strConcat, strAppend_assoc,
      List.append_assoc]

theorem foldl_erase_of_perm {keys varNames : List String}
    (h : keys.Perm varNames) :
    keys.foldl (fun vs k => vs.erase k) varNames = [] := by
  induction keys generalizing varNames with
  | nil =>
    rw [List.foldl_nil]
    exact h.nil_eq.symm
  | cons k ks ih =>
    have hk : k ∈ varNames := h.subset (List.mem_cons_self _ _)
    have h2 : ks.Perm (varNames.erase k) :=
      (h.trans (List.perm_cons_erase hk)).cons_inv
    rw [List.foldl_cons]
    exact ih h2

theorem mem_foldl_erase {d : String} {keys varNames : List String}
    (hd : d ∈ varNames) (hnk : d ∉ keys) :
    d ∈ keys.foldl (fun vs k => vs.erase k) varNames := by
  induction keys generalizing varNames with
  | nil => exact hd
  | cons k ks ih =>
    have hdk : d ≠ k :=
      fun he => hnk (by rw [he]; exact List.mem_cons_self k ks)
    rw [List.foldl_cons]
    exact ih ((List.mem_erase_of_ne hdk).mpr hd)
      (fun hmem => hnk (List.mem_cons_of_mem _ hmem))

theorem substituteTemplate_covered {toks : List TemplateTok}
    {subs : List (String × String)}
    (h : templateCovered toks (subs.map (fun p => p.1)) = true) :
    ∃ t, substituteTemplate toks subs = some t := by
  induction toks with
  | nil => exact ⟨"", rfl⟩
  | cons tok rest ih =>
    rw [templateCovered, List.all_cons, Bool.and_eq_true] at h
    obtain ⟨htok, hrest⟩ := h
    obtain ⟨t, ht⟩ := ih hrest
    cases tok with
    | lit s =>
      exact ⟨s ++ t, by rw [substituteTemplate, ht]; rfl⟩
    | var n =>
      have hmem : n ∈ subs.map (fun p => p.1) :=
        List.mem_of_elem_eq_true htok
      obtain ⟨v, hv⟩ :=
        Option.isSome_iff_exists.mp (pyDictGet_isSome_of_mem hmem)
      exact ⟨v ++ t, by rw [substituteTemplate, hv, ht]; rfl⟩

theorem templateBindLoop_error (tplBindings : List (String × String))
    (kwds : List (String × (String × String))) :
    ∀ (varNames : List String) (subs : List (String × String))
      (code : String),
    (kwds.map (fun kv => kv.1)).Nodup →
    (∀ k ∈ varNames, k ∈ tplBindings.map (fun b => b.1)) →
    (∀ k ∈ kwds.map (fun kv => kv.1),
      k ∈ tplBindings.map (fun b => b.1) → k ∈ varNames) →
    (∃ k ∈ kwds.map (fun kv => kv.1), k ∉ tplBindings.map (fun b => b.1)) →
    ∃ k, k ∉ tplBindings.map (fun b => b.1) ∧
      templateBindLoop tplBindings varNames subs code kwds
        = Except.error (.valueErrorRemove k) := by
  induction kwds with
  | nil =>
    intro varNames subs code hnd hvsub hdm hex
    obtain ⟨k, hk, _⟩ := hex
    cases hk
  | cons kv rest ih =>
    intro varNames subs code hnd hvsub hdm hex
    obtain ⟨vn, spec⟩ := kv
    by_cases hvn : vn ∈ tplBindings.map (fun b => b.1)
    · have hv : vn ∈ varNames := hdm vn (by simp) hvn
      obtain ⟨dtype, hd⟩ :=
        Option.isSome_iff_exists.mp (pyDictGet_isSome_of_mem hvn)
      rw [List.map_cons] at hnd
      have hvn_not : vn ∉ rest.map (fun kv => kv.1) :=
        (List.nodup_cons.mp hnd).1
      have hex' : ∃ k ∈ rest.map (fun kv => kv.1),
          k ∉ tplBindings.map (fun b => b.1) := by
        obtain ⟨k, hk, hkd⟩ := hex
        rcases List.mem_cons.mp hk with rfl | hmem
        · exact absurd hvn hkd
        · exact ⟨k, hmem, hkd⟩
      obtain ⟨k, hkd, hke⟩ := ih (varNames.erase vn)
        (subs ++ [(vn, spec.2)])
        (code ++ spec.1 ++ " " ++ dtype ++ " " ++ spec.2 ++ ";\n")
        hnd.of_cons
        (fun k hk => hvsub k (List.mem_of_mem_erase hk))
        (fun k hk hkb => (List.mem_erase_of_ne
            (fun he => hvn_not (by rw [← he]; exact hk))).mpr
          (hdm k (List.mem_cons_of_mem _ hk) hkb))
        hex'
      exact ⟨k, hkd, by rw [templateBindLoop_cons_mem hv hd]; exact hke⟩
    · have hv : vn ∉ varNames := fun hmem => hvn (hvsub vn hmem)
      exact ⟨vn, hvn, templateBindLoop_cons_not_mem hv⟩

/-- C6: `FunctionTemplate.bind` fails when some supplied keyword is not
among the declared bindings (in the source this is the ValueError raised
by `var_names.remove`; the crafted KeyError branch on line 488 is dead
code, as a name that survived `remove` is always declared); it fails with
the unsubstituted-variables Exception when some declared binding is left
unsupplied; and when the supplied keywords are exactly the declared
bindings it succeeds, returning the code of a brand-new Function: one
declaration per supplied binding — in keyword order, with the declared
type — followed by the substituted template text.  `bind` only mutates a
fresh copy of the declared-name list (`self._bindings.keys()` returns a
new list in Python 2), so the template's own state is untouched; in this
pure embedding `tpl` is read but never rebuilt. -/
theorem FunctionTemplate.bind_spec (tpl : FunctionTemplate) (name : String)
    (kwds : List (String × (String × String)))
    (hnd : (kwds.map (fun kv => kv.1)).Nodup) :
    ((∃ k ∈ kwds.map (fun kv => kv.1),
        k ∉ tpl.bindings.map (fun b => b.1)) →
      ∃ k, k ∉ tpl.bindings.map (fun b => b.1) ∧
        tpl.bind name kwds = Except.error (.valueErrorRemove k)) ∧
    ((∀ k ∈ kwds.map (fun kv => kv.1),
        k ∈ tpl.bindings.map (fun b => b.1)) →
      (∃ d ∈ tpl.bindings.map (fun b => b.1),
        d ∉ kwds.map (fun kv => kv.1)) →
      ∃ ns, ns ≠ [] ∧
        tpl.bind name kwds = Except.error (.missingSubstitution ns)) ∧
    ((kwds.map (fun kv => kv.1)).Perm (tpl.bindings.map (fun b => b.1)) →
      templateCovered tpl.template
        ("func_name" :: kwds.map (fun kv => kv.1)) = true →
      ∃ t, substituteTemplate tpl.template
          (("func_name", name) :: kwds.map (fun kv => (kv.1, kv.2.2)))
            = some t ∧
        tpl.bind name kwds = Except.ok
          (strConcat (kwds.map (fun kv =>
            kv.2.1 ++ " " ++ ((pyDictGet tpl.bindings kv.1).getD "") ++ " "
              ++ kv.2.2 ++ ";\n")) ++ t)) := by
  refine ⟨?_, ?_, ?_⟩
  · intro hex
    obtain ⟨k, hkd, hke⟩ := templateBindLoop_error tpl.bindings kwds
      (tpl.bindings.map (fun b => b.1)) [("func_name", name)] "" hnd
      (fun k hk => hk) (fun k hk hkb => hkb) hex
    exact ⟨k, hkd, FunctionTemplate_bind_eq_of_loop_error hke⟩
  · intro hall hex
    obtain ⟨d, hd, hdk⟩ := hex
    rw [FunctionTemplate_bind_eq_of_loop_ok (templateBindLoop_ok
      tpl.bindings kwds (tpl.bindings.map (fun b => b.1))
      [("func_name", name)] "" hnd hall (fun k hk => hk))]
    have hleft : d ∈ kwds.foldl (fun vs kv => vs.erase kv.1)
        (tpl.bindings.map (fun b => b.1)) := by
      rw [show kwds.foldl (fun vs kv => vs.erase kv.1)
          (tpl.bindings.map (fun b => b.1))
        = (kwds.map (fun kv => kv.1)).foldl (fun vs k => vs.erase k)
          (tpl.bindings.map (fun b => b.1)) from
        (List.foldl_map (fun kv => kv.1) (fun vs k => vs.erase k) kwds
          (tpl.bindings.map (fun b => b.1))).symm]
      exact mem_foldl_erase hd hdk
    have hne : ¬(kwds.foldl (fun vs kv => vs.erase kv.1)
        (tpl.bindings.map (fun b => b.1))).isEmpty = true := by
      intro he
      rw [List.isEmpty_iff] at he
      rw [he] at hleft
      cases hleft
    rw [if_neg hne]
    exact ⟨_, List.ne_nil_of_mem hleft, rfl⟩
  · intro hperm hcov
    have hempty : kwds.foldl (fun vs kv => vs.erase kv.1)
        (tpl.bindings.map (fun b => b.1)) = [] := by
      rw [show kwds.foldl (fun vs kv => vs.erase kv.1)
          (tpl.bindings.map (fun b => b.1))
        = (kwds.map (fun kv => kv.1)).foldl (fun vs k => vs.erase k)
          (tpl.bindings.map (fun b => b.1)) from
        (List.foldl_map (fun kv => kv.1) (fun vs k => vs.erase k) kwds
          (tpl.bindings.map (fun b => b.1))).symm]
      exact foldl_erase_of_perm hperm
    have hsubkeys : (("func_name", name)
          :: kwds.map (fun kv => (kv.1, kv.2.2))).map (fun p => p.1)
        = "func_name" :: kwds.map (fun kv => kv.1) := by
      simp
    obtain ⟨t, ht⟩ := substituteTemplate_covered
      (by rw [hsubkeys]; exact hcov)
    refine ⟨t, ht, ?_⟩
    rw [FunctionTemplate_bind_eq_of_loop_ok (templateBindLoop_ok
      tpl.bindings kwds (tpl.bindings.map (fun b => b.1))
      [("func_name", name)] "" hnd (fun k hk => hperm.subset hk)
      (fun k hk => hk)), hempty]
    rw [if_pos (by rfl)]
    rw [List.singleton_append, ht, strEmpty_append]

theorem FunctionTemplate.bind_spec_witness :
    ∃ t, substituteTemplate
        [TemplateTok.lit "vec4 ", TemplateTok.var "func_name",
         TemplateTok.lit "() \x7b\n    return vec4(", TemplateTok.var "input",
         TemplateTok.lit ", 0, 1);\n\x7d"]
        (("func_name", "my_function")
          :: [("input", ("uniform", "my_input"))].map
              (fun kv => (kv.1, kv.2.2))) = some t ∧
      FunctionTemplate.bind
          ⟨[TemplateTok.lit "vec4 ", TemplateTok.var "func_name",
            TemplateTok.lit "() \x7b\n    return vec4(",
            TemplateTok.var "input", TemplateTok.lit ", 0, 1);\n\x7d"],
           [("input", "vec2")]⟩
          "my_function" [("input", ("uniform", "my_input"))]
        = Except.ok
          (strConcat ([("input", ("uniform", "my_input"))].map (fun kv =>
            kv.2.1 ++ " "
              ++ ((pyDictGet [("input", "vec2")] kv.1).getD "") ++ " "
              ++ kv.2.2 ++ ";\n")) ++ t) :=
  (FunctionTemplate.bind_spec
    ⟨[TemplateTok.lit "vec4 ", TemplateTok.var "func_name",
      TemplateTok.lit "() \x7b\n    return vec4(", TemplateTok.var "input",
      TemplateTok.lit ", 0, 1);\n\x7d"], [("input", "vec2")]⟩
    "my_function" [("input", ("uniform", "my_input"))]
    (by decide)).2.2 (by decide) (by decide)

/-! ## FragmentFunction.bind keyword partition (function.py lines 542-573) -/

/-- The first loop of `FragmentFunction.bind` (lines 554-561): for every
linked pair, look up the vertex-side type (a dict access that would raise
KeyError for an unknown name; the looked-up type is otherwise unused by
the source), build the fresh varying `('varying',
'<name>_<vname>_<fname>_var')` and seed it into both variable dicts. -/
def fragmentLinkLoop (vertBindings : List (String × String))
    (name : String) :
    List (String × List String) → List (String × List String) →
    List (String × String) →
    Except String (List (String × List String) × List (String × List String))
  | fragVars, vertVars, [] => Except.ok (fragVars, vertVars)
  | fragVars, vertVars, (vname, fname) :: rest =>
    match pyDictGet vertBindings vname with
    | none => Except.error vname
    | some _ =>
      fragmentLinkLoop vertBindings name
        (fragVars ++ [(fname,
          ["varying", name ++ "_" ++ vname ++ "_" ++ fname ++ "_var"])])
        (vertVars ++ [(vname,
          ["varying", name ++ "_" ++ vname ++ "_" ++ fname ++ "_var"])])
        rest

/-- The routing test actually implemented by the second loop: a keyword
goes to the fragment side iff the fragment function declares it and it is
not one of the link-generated fragment variable names. -/
def routesToFrag (fragBindings : List (String × String))
    (linkFragNames : List String) (k : String) : Bool :=
  (pyDictGet fragBindings k).isSome && !(linkFragNames.contains k)

/-- The keyword-routing loop of `FragmentFunction.bind` (lines 566-573):
`if bind_name not in frag_vars and bind_name in self.frag_func.bindings`
route to the fragment dict, `elif bind_name in self.vert_func.bindings`
route to the vertex dict, else KeyError. -/
def fragmentRouteLoop (fragBindings vertBindings : List (String × String)) :
    List (String × List String) → List (String × List String) →
    List (String × List String) →
    Except String (List (String × List String) × List (String × List String))
  | fragVars, vertVars, [] => Except.ok (fragVars, vertVars)
  | fragVars, vertVars, (k, v) :: rest =>
    if (pyDictGet fragVars k).isNone && (pyDictGet fragBindings k).isSome then
      fragmentRouteLoop fragBindings vertBindings
        (fragVars ++ [(k, v)]) vertVars rest
    else if (pyDictGet vertBindings k).isSome then
      fragmentRouteLoop fragBindings vertBindings
        fragVars (vertVars ++ [(k, v)]) rest
    else Except.error k

/-- The variable-partition phase of `FragmentFunction.bind` (lines
551-573): seed the two dicts with the link varyings, then route each
caller keyword. -/
def fragmentBindPartition (d : FragFunctionData) (name : String)
    (kwds : List (String × List String)) :
    Except String
      (List (String × List String) × List (String × List String)) :=
  match fragmentLinkLoop d.vertBindings name [] [] d.linkVars with
  | Except.error e => Except.error e
  | Except.ok (fragVars, vertVars) =>
    fragmentRouteLoop d.fragBindings d.vertBindings fragVars vertVars kwds

/-- C5 counterexample: with `x` bindable by BOTH the fragment and the
vertex function (and no link variables), `bind`'s partition does not fail
on the ambiguity — it silently routes `x` to the fragment side.  The
claim's "a name bindable by both sides also fails" is false on the code. -/
theorem FragmentFunction.bind_ambiguous_counterexample :
    (pyDictGet [("x", "float")] "x").isSome = true ∧
    fragmentBindPartition ⟨[("x", "float")], [("x", "float")], []⟩ "nm"
        [("x", ["uniform", "u_x"])]
      = Except.ok ([("x", ["uniform", "u_x"])], []) :=
  ⟨rfl, rfl⟩

theorem fragmentLinkLoop_cons_some {vertB : List (String × String)}
    {name : String} {fragVars vertVars : List (String × List String)}
    {vname fname : String} {rest : List (String × String)} {t : String}
    (ht : pyDictGet vertB vname = some t) :
    fragmentLinkLoop vertB name fragVars vertVars ((vname, fname) :: rest)
      = fragmentLinkLoop vertB name
          (fragVars ++ [(fname,
            ["varying", name ++ "_" ++ vname ++ "_" ++ fname ++ "_var"])])
          (vertVars ++ [(vname,
            ["varying", name ++ "_" ++ vname ++ "_" ++ fname ++ "_var"])])
          rest := by
  rw [fragmentLinkLoop, ht]

theorem fragmentLinkLoop_ok (vertB : List (String × String)) (name : String)
    (linkVars : List (String × String)) :
    ∀ (fragVars vertVars : List (String × List String)),
    (∀ p ∈ linkVars, (pyDictGet vertB p.1).isSome = true) →
    fragmentLinkLoop vertB name fragVars vertVars linkVars
      = Except.ok
        (fragVars ++ linkVars.map (fun p => (p.2,
           ["varying", name ++ "_" ++ p.1 ++ "_" ++ p.2 ++ "_var"])),
         vertVars ++ linkVars.map (fun p => (p.1,
           ["varying", name ++ "_" ++ p.1 ++ "_" ++ p.2 ++ "_var"]))) := by
  induction linkVars with
  | nil =>
    intro fragVars vertVars h
    rw [fragmentLinkLoop]
    simp
  | cons p rest ih =>
    intro fragVars vertVars h
    obtain ⟨vname, fname⟩ := p
    obtain ⟨t, ht⟩ := Option.isSome_iff_exists.mp
      (h (vname, fname) (List.mem_cons_self _ _))
    rw [fragmentLinkLoop_cons_some ht,
      ih _ _ (fun q hq => h q (List.mem_cons_of_mem _ hq))]
    simp [List.append_assoc]

theorem fragmentRouteLoop_ok (fragB vertB : List (String × String))
    (linkF : List String) (kwds : List (String × List String)) :
    ∀ (fragVars vertVars : List (String × List String)),
    (kwds.map (fun kv => kv.1)).Nodup →
    (∀ k ∈ kwds.map (fun kv => kv.1),
      (pyDictGet fragVars k).isSome = linkF.contains k) →
    (∀ k ∈ kwds.map (fun kv => kv.1),
      routesToFrag fragB linkF k = true
        ∨ (pyDictGet vertB k).isSome = true) →
    fragmentRouteLoop fragB vertB fragVars vertVars kwds
      = Except.ok
        (fragVars ++ kwds.filter (fun kv => routesToFrag fragB linkF kv.1),
         vertVars
           ++ kwds.filter (fun kv => !routesToFrag fragB linkF kv.1)) := by
  induction kwds with
  | nil =>
    intro fragVars vertVars _ _ _
    rw [fragmentRouteLoop]
    simp
  | cons kv rest ih =>
    intro fragVars vertVars hnd hinv hroute
    obtain ⟨k, v⟩ := kv
    have hinvk := hinv k (List.mem_cons_self _ _)
    have hnone : (pyDictGet fragVars k).isNone = !(linkF.contains k) := by
      cases hpg : pyDictGet fragVars k with
      | none =>
        rw [hpg] at hinvk
        rw [show (none : Option (List String)).isNone = true from rfl,
          ← hinvk]
        rfl
      | some w =>
        rw [hpg] at hinvk
        rw [show (some w).isNone = false from rfl, ← hinvk]
        rfl
    have hcond : ((pyDictGet fragVars k).isNone
          && (pyDictGet fragB k).isSome)
        = routesToFrag fragB linkF k := by
      rw [routesToFrag, hnone, Bool.and_comm]
    rw [List.map_cons] at hnd
    have hk_not : k ∉ rest.map (fun kv => kv.1) :=
      (List.nodup_cons.mp hnd).1
    by_cases hr : routesToFrag fragB linkF k = true
    · rw [fragmentRouteLoop, if_pos (by rw [hcond]; exact hr),
        ih (fragVars ++ [(k, v)]) vertVars hnd.of_cons
          (fun k' hk' => by
            rw [pyDictGet_append_ne
              (show ((k, v) : String × List String).1 ≠ k' from
                fun he => hk_not (by simp at he; rw [he]; exact hk'))]
            exact hinv k' (List.mem_cons_of_mem _ hk'))
          (fun k' hk' => hroute k' (List.mem_cons_of_mem _ hk'))]
      rw [List.filter_cons, List.filter_cons, hr]
      simp [List.append_assoc]
    · have hvert : (pyDictGet vertB k).isSome = true := by
        rcases hroute k (List.mem_cons_self _ _) with h | h
        · exact absurd h hr
        · exact h
      have hr' : routesToFrag fragB linkF k = false :=
        Bool.not_eq_true _ |>.mp hr
      rw [fragmentRouteLoop, if_neg (by rw [hcond, hr']; simp),
        if_pos hvert,
        ih fragVars (vertVars ++ [(k, v)]) hnd.of_cons
          (fun k' hk' => hinv k' (List.mem_cons_of_mem _ hk'))
          (fun k' hk' => hroute k' (List.mem_cons_of_mem _ hk'))]
      rw [List.filter_cons, List.filter_cons, hr']
      simp [List.append_assoc]

theorem fragmentRouteLoop_error (fragB vertB : List (String × String))
    (linkF : List String) (kwds : List (String × List String)) :
    ∀ (fragVars vertVars : List (String × List String)),
    (kwds.map (fun kv => kv.1)).Nodup →
    (∀ k ∈ kwds.map (fun kv => kv.1),
      (pyDictGet fragVars k).isSome = linkF.contains k) →
    (∃ k ∈ kwds.map (fun kv => kv.1),
      routesToFrag fragB linkF k = false
        ∧ (pyDictGet vertB k).isSome = false) →
    ∃ k, routesToFrag fragB linkF k = false
        ∧ (pyDictGet vertB k).isSome = false
        ∧ fragmentRouteLoop fragB vertB fragVars vertVars kwds
          = Except.error k := by
  induction kwds with
  | nil =>
    intro fragVars vertVars _ _ hex
    obtain ⟨k, hk, _⟩ := hex
    cases hk
  | cons kv rest ih =>
    intro fragVars vertVars hnd hinv hex
    obtain ⟨k, v⟩ := kv
    have hinvk := hinv k (List.mem_cons_self _ _)
    have hnone : (pyDictGet fragVars k).isNone = !(linkF.contains k) := by
      cases hpg : pyDictGet fragVars k with
      | none =>
        rw [hpg] at hinvk
        rw [show (none : Option (List String)).isNone = true from rfl,
          ← hinvk]
        rfl
      | some w =>
        rw [hpg] at hinvk
        rw [show (some w).isNone = false from rfl, ← hinvk]
        rfl
    have hcond : ((pyDictGet fragVars k).isNone
          && (pyDictGet fragB k).isSome)
        = routesToFrag fragB linkF k := by
      rw [routesToFrag, hnone, Bool.and_comm]
    rw [List.map_cons] at hnd
    have hk_not : k ∉ rest.map (fun kv => kv.1) :=
      (List.nodup_cons.mp hnd).1
    by_cases hbad : routesToFrag fragB linkF k = false
        ∧ (pyDictGet vertB k).isSome = false
    · refine ⟨k, hbad.1, hbad.2, ?_⟩
      rw [fragmentRouteLoop, if_neg (by rw [hcond, hbad.1]; simp),
        if_neg (by rw [hbad.2]; simp)]
    · have hex' : ∃ k' ∈ rest.map (fun kv => kv.1),
          routesToFrag fragB linkF k' = false
            ∧ (pyDictGet vertB k').isSome = false := by
        obtain ⟨k', hk', hbad'⟩ := hex
        rcases List.mem_cons.mp hk' with rfl | hmem
        · exact absurd hbad' hbad
        · exact ⟨k', hmem, hbad'⟩
      by_cases hr : routesToFrag fragB linkF k = true
      · obtain ⟨k', h1, h2, h3⟩ := ih (fragVars ++ [(k, v)]) vertVars
          hnd.of_cons
          (fun k2 hk2 => by
            rw [pyDictGet_append_ne
              (show ((k, v) : String × List String).1 ≠ k2 from
                fun he => hk_not (by simp at he; rw [he]; exact hk2))]
            exact hinv k2 (List.mem_cons_of_mem _ hk2))
          hex'
        exact ⟨k', h1, h2, by
          rw [fragmentRouteLoop, if_pos (by rw [hcond]; exact hr)]
          exact h3⟩
      · have hr' : routesToFrag fragB linkF k = false :=
          Bool.not_eq_true _ |>.mp hr
        have hvert : (pyDictGet vertB k).isSome = true := by
          by_contra hcv
          exact hbad ⟨hr', Bool.not_eq_true _ |>.mp hcv⟩
        obtain ⟨k', h1, h2, h3⟩ := ih fragVars (vertVars ++ [(k, v)])
          hnd.of_cons
          (fun k2 hk2 => hinv k2 (List.mem_cons_of_mem _ hk2))
          hex'
        exact ⟨k', h1, h2, by
          rw [fragmentRouteLoop, if_neg (by rw [hcond, hr']; simp),
            if_pos hvert]
          exact h3⟩

theorem pyDictGet_linkMap_isSome (linkVars : List (String × String))
    (g : String × String → List String) (k : String) :
    (pyDictGet (linkVars.map (fun p => (p.2, g p))) k).isSome
      = (linkVars.map (fun p => p.2)).contains k := by
  by_cases hm : k ∈ linkVars.map (fun p => p.2)
  · have hmem : k ∈ (linkVars.map (fun p => (p.2, g p))).map
        (fun q => q.1) := by
      rw [List.map_map]
      simpa using hm
    rw [pyDictGet_isSome_of_mem hmem]
    exact (List.elem_eq_true_of_mem hm).symm
  · have hmem : k ∉ (linkVars.map (fun p => (p.2, g p))).map
        (fun q => q.1) := by
      rw [List.map_map]
      simpa using hm
    rw [pyDictGet_eq_none_of_not_mem hmem]
    cases hc : (linkVars.map (fun p => p.2)).contains k
    · rfl
    · exact absurd (List.mem_of_elem_eq_true hc) hm

/-- C5 (amended): `FragmentFunction.bind` does not treat a name bindable
on both sides as ambiguous.  After seeding the two variable dicts with one
fresh varying per linked pair, each caller-supplied keyword is routed to
the fragment function exactly when the fragment function declares it and
it is not a link-generated fragment variable name — so a name bindable by
BOTH functions is silently assigned to the fragment side (fragment wins,
no error); otherwise it is routed to the vertex function when that
declares it; and only a keyword matched by neither rule fails, with the
KeyError of line 572. -/
theorem FragmentFunction.bind_partition_spec (d : FragFunctionData)
    (name : String) (kwds : List (String × List String))
    (hnd : (kwds.map (fun kv => kv.1)).Nodup)
    (hlink : ∀ p ∈ d.linkVars,
      (pyDictGet d.vertBindings p.1).isSome = true) :
    ((∀ k ∈ kwds.map (fun kv => kv.1),
        routesToFrag d.fragBindings (d.linkVars.map (fun p => p.2)) k = true
          ∨ (pyDictGet d.vertBindings k).isSome = true) →
      fragmentBindPartition d name kwds = Except.ok
        (d.linkVars.map (fun p => (p.2,
            ["varying", name ++ "_" ++ p.1 ++ "_" ++ p.2 ++ "_var"]))
          ++ kwds.filter (fun kv => routesToFrag d.fragBindings
              (d.linkVars.map (fun p => p.2)) kv.1),
         d.linkVars.map (fun p => (p.1,
            ["varying", name ++ "_" ++ p.1 ++ "_" ++ p.2 ++ "_var"]))
          ++ kwds.filter (fun kv => !routesToFrag d.fragBindings
              (d.linkVars.map (fun p => p.2)) kv.1))) ∧
    ((∃ k ∈ kwds.map (fun kv => kv.1),
        routesToFrag d.fragBindings (d.linkVars.map (fun p => p.2)) k = false
          ∧ (pyDictGet d.vertBindings k).isSome = false) →
      ∃ k, fragmentBindPartition d name kwds = Except.error k ∧
        routesToFrag d.fragBindings (d.linkVars.map (fun p => p.2)) k = false
          ∧ (pyDictGet d.vertBindings k).isSome = false) := by
  have hlinkloop := fragmentLinkLoop_ok d.vertBindings name d.linkVars
    [] [] hlink
  have hpart : fragmentBindPartition d name kwds
      = fragmentRouteLoop d.fragBindings d.vertBindings
          (d.linkVars.map (fun p => (p.2,
            ["varying", name ++ "_" ++ p.1 ++ "_" ++ p.2 ++ "_var"])))
          (d.linkVars.map (fun p => (p.1,
            ["varying", name ++ "_" ++ p.1 ++ "_" ++ p.2 ++ "_var"])))
          kwds := by
    rw [fragmentBindPartition, hlinkloop]
    rfl
  have hinv0 : ∀ k ∈ kwds.map (fun kv => kv.1),
      (pyDictGet (d.linkVars.map (fun p => (p.2,
          ["varying", name ++ "_" ++ p.1 ++ "_" ++ p.2 ++ "_var"]))) k).isSome
        = (d.linkVars.map (fun p => p.2)).contains k :=
    fun k _ => pyDictGet_linkMap_isSome d.linkVars _ k
  refine ⟨?_, ?_⟩
  · intro hroute
    rw [hpart, fragmentRouteLoop_ok d.fragBindings d.vertBindings
      (d.linkVars.map (fun p => p.2)) kwds _ _ hnd hinv0 hroute]
  · intro hex
    obtain ⟨k, h1, h2, h3⟩ := fragmentRouteLoop_error d.fragBindings
      d.vertBindings (d.linkVars.map (fun p => p.2)) kwds _ _ hnd hinv0 hex
    exact ⟨k, by rw [hpart]; exact h3, h1, h2⟩

theorem FragmentFunction.bind_partition_spec_witness :
    fragmentBindPartition ⟨[("x", "float")], [("x", "float")], []⟩ "nm"
        [("x", ["uniform", "u_x"])]
      = Except.ok ([("x", ["uniform", "u_x"])], ([] : List (String × List String))) :=
  (FragmentFunction.bind_partition_spec
    ⟨[("x", "float")], [("x", "float")], []⟩ "nm"
    [("x", ["uniform", "u_x"])] (by decide) (by decide)).1 (by decide)

end vispy
